import Mathlib

/-!
Verification development for the Mini-Data-Pipeline repository.

Shallow embedding of the pipeline core:
  * `src/pipeline/cleaners.py`  — `mask_pii`, `is_english`
  * `src/pipeline/filters.py`   — `filter_record`
  * `src/pipeline/loaders.py`   — `load_dolly15k`
  * `src/pipeline/io_utils.py`  — `stream_jsonl`
  * `src/pipeline/main.py`      — `process_file`

Python strings are modelled as Lean `String` / `List Char`.  The character
classes of the regular expressions in `cleaners.py` (`[A-Za-z0-9._-]`, `\d`,
`\b`, `[A-Za-z]`) are modelled over ASCII; Python's `re` module would also
accept some non-ASCII word/digit characters, which no claim depends on.
The two `re.sub` calls are embedded as executable scanners with Python's
leftmost-match semantics: at each position the backtracking engine succeeds
iff some prefix of the remaining text matches the pattern, and for these two
concrete patterns the chosen extent is computed directly (for the e-mail
pattern the greedy domain split, for the IPv4 pattern the split is forced).
-/

/-- ASCII model of the regex character class `[A-Za-z]` (the TLD class of the
e-mail pattern in `cleaners.py`). -/
def isLetterA (c : Char) : Bool :=
  (decide ('A' ≤ c) && decide (c ≤ 'Z')) || (decide ('a' ≤ c) && decide (c ≤ 'z'))

/-- ASCII model of the regex class `\d`. -/
def isDigitA (c : Char) : Bool :=
  decide ('0' ≤ c) && decide (c ≤ '9')

/-- ASCII model of the regex class `[A-Za-z0-9._-]` used for the local part and
the domain part of the e-mail pattern in `cleaners.py` line 24. -/
def isEmailChar (c : Char) : Bool :=
  isLetterA c || isDigitA c || c == '.' || c == '_' || c == '-'

/-- ASCII model of the regex class `\w`, used for the `\b` assertions of the
IPv4 pattern in `cleaners.py` line 25. -/
def isWordChar (c : Char) : Bool :=
  isLetterA c || isDigitA c || c == '_'

/-- Replacement text of the e-mail substitution in `mask_pii`. -/
def emailSentinel : List Char := '|' :: '|' :: '|' :: 'E' :: 'M' :: 'A' :: 'I' :: 'L' :: '|' :: '|' :: '|' :: []

/-- Replacement text of the IPv4 substitution in `mask_pii`. -/
def ipSentinel : List Char := '|' :: '|' :: '|' :: 'I' :: 'P' :: '|' :: '|' :: '|' :: []

/-- Greedy split of the character run following `@` for the e-mail pattern
`[A-Za-z0-9._-]+\.[A-Za-z]{2,}` tail: find the rightmost `.` in `run` that is
followed by at least two letters; returns (domain, tld, leftover) with
`run = domain ++ '.' :: tld ++ leftover`, where tld is the maximal letter run
(greedy `{2,}`).  Preferring the rightmost dot models the greedy `+` of the
domain part, which backtracks from the longest candidate. -/
def findDomSplit : List Char → Option (List Char × List Char × List Char)
  | [] => none
  | c :: rest =>
    match findDomSplit rest with
    | some (d, t, l) => some (c :: d, t, l)
    | none =>
      if c == '.' then
        let t := rest.takeWhile isLetterA
        if 2 ≤ t.length then some ([], t, rest.dropWhile isLetterA) else none
      else none

/-- Attempt of the e-mail pattern `[A-Za-z0-9._-]+@[A-Za-z0-9._-]+\.[A-Za-z]{2,}`
at the start of `cs`; returns (matched, rest).  The local part is forced to be
the maximal `[A-Za-z0-9._-]` run (shorter candidates are followed by a class
character, never `@`), the rest follows `findDomSplit`. -/
def matchEmailAt (cs : List Char) : Option (List Char × List Char) :=
  match cs.dropWhile isEmailChar with
  | '@' :: rest2 =>
    if (cs.takeWhile isEmailChar).isEmpty then none
    else
      match findDomSplit (rest2.takeWhile isEmailChar) with
      | some (d, t, l) =>
        if d.isEmpty then none
        else some (cs.takeWhile isEmailChar ++ '@' :: (d ++ '.' :: t),
                   l ++ rest2.dropWhile isEmailChar)
      | none => none
  | _ => none

/-- Leftmost-match scan of the e-mail pattern: returns (skipped prefix,
matched, rest), like the scan loop of `re.sub`. -/
def findEmail : List Char → Option (List Char × List Char × List Char)
  | [] => none
  | c :: cs =>
    match matchEmailAt (c :: cs) with
    | some (m, r) => some ([], m, r)
    | none =>
      match findEmail cs with
      | some (a, m, r) => some (c :: a, m, r)
      | none => none

theorem findDomSplit_append {run d t l} (h : findDomSplit run = some (d, t, l)) :
    run = d ++ '.' :: (t ++ l) ∧ (∀ c ∈ t, isLetterA c = true) ∧ 2 ≤ t.length := by
  induction run generalizing d t l with
  | nil => simp [findDomSplit] at h
  | cons c rest ih =>
    rw [findDomSplit] at h
    cases hrec : findDomSplit rest with
    | some dtl =>
      obtain ⟨d', t', l'⟩ := dtl
      rw [hrec] at h
      simp only [Option.some.injEq, Prod.mk.injEq] at h
      obtain ⟨hd, ht, hl⟩ := h
      obtain ⟨h1, h2, h3⟩ := ih hrec
      subst hd ht hl
      exact ⟨by rw [h1]; simp, h2, h3⟩
    | none =>
      rw [hrec] at h
      by_cases hc : c = '.'
      · simp only [hc, beq_self_eq_true, if_true] at h
        by_cases hlen : 2 ≤ (rest.takeWhile isLetterA).length
        · simp only [hlen, if_true, Option.some.injEq, Prod.mk.injEq] at h
          obtain ⟨hd, ht, hl⟩ := h
          subst hd ht hl
          refine ⟨?_, ?_, hlen⟩
          · subst hc
            rw [List.nil_append]
            rw [List.takeWhile_append_dropWhile]
          · intro x hx
            exact List.mem_takeWhile_imp hx
        · simp [hlen] at h
      · simp [hc] at h

theorem matchEmailAt_append {cs m r} (h : matchEmailAt cs = some (m, r)) :
    cs = m ++ r ∧ m ≠ [] := by
  unfold matchEmailAt at h
  split at h
  next rest2 hdw =>
    by_cases hloc : (cs.takeWhile isEmailChar).isEmpty
    · simp [hloc] at h
    · simp only [hloc, Bool.false_eq_true, if_false] at h
      cases hds : findDomSplit (rest2.takeWhile isEmailChar) with
      | none => rw [hds] at h; simp at h
      | some dtl =>
        obtain ⟨d, t, l⟩ := dtl
        rw [hds] at h
        by_cases hd : d.isEmpty
        · simp [hd] at h
        · simp only [hd, Bool.false_eq_true, if_false, Option.some.injEq, Prod.mk.injEq] at h
          obtain ⟨hm, hr⟩ := h
          obtain ⟨hrun, _, _⟩ := findDomSplit_append hds
          subst hm hr
          constructor
          · have h0 : rest2.takeWhile isEmailChar ++ rest2.dropWhile isEmailChar = rest2 :=
              List.takeWhile_append_dropWhile _ _
            rw [hrun] at h0
            have hcs : cs.takeWhile isEmailChar ++ cs.dropWhile isEmailChar = cs :=
              List.takeWhile_append_dropWhile _ _
            rw [hdw] at hcs
            conv_lhs => rw [← hcs]; rw [← h0]
            simp
          · simp
  next hne => simp at h

theorem findEmail_append {cs a m r} (h : findEmail cs = some (a, m, r)) :
    cs = a ++ m ++ r ∧ m ≠ [] := by
  induction cs generalizing a m r with
  | nil => simp [findEmail] at h
  | cons c rest ih =>
    rw [findEmail] at h
    cases hm : matchEmailAt (c :: rest) with
    | some mr =>
      obtain ⟨m', r'⟩ := mr
      rw [hm] at h
      simp only [Option.some.injEq, Prod.mk.injEq] at h
      obtain ⟨ha, hm2, hr⟩ := h
      subst ha hm2 hr
      obtain ⟨h1, h2⟩ := matchEmailAt_append hm
      exact ⟨by rw [List.nil_append]; exact h1, h2⟩
    | none =>
      rw [hm] at h
      cases hrec : findEmail rest with
      | some amr =>
        obtain ⟨a', m', r'⟩ := amr
        rw [hrec] at h
        simp only [Option.some.injEq, Prod.mk.injEq] at h
        obtain ⟨ha, hm2, hr⟩ := h
        subst ha hm2 hr
        obtain ⟨h1, h2⟩ := ih hrec
        exact ⟨by rw [h1]; simp, h2⟩
      | none => rw [hrec] at h; simp at h

theorem findEmail_rest_lt {cs a m r} (h : findEmail cs = some (a, m, r)) :
    r.length < cs.length := by
  obtain ⟨h1, h2⟩ := findEmail_append h
  rw [h1]
  simp only [List.length_append]
  have : 0 < m.length := List.length_pos.mpr h2
  omega

/-- Model of `re.sub` for the e-mail pattern of `mask_pii` (cleaners.py
line 24): replace every non-overlapping leftmost match by the sentinel
`|||EMAIL|||`, continuing the scan after the end of each match.  The
recursion is driven by a fuel argument so that the definition reduces
definitionally; every match is nonempty, so `cs.length` fuel is always
enough (`maskEmailsAux_congr` below). -/
def maskEmailsAux : Nat → List Char → List Char
  | 0, cs => cs
  | fuel + 1, cs =>
    match findEmail cs with
    | none => cs
    | some (a, _, r) => a ++ emailSentinel ++ maskEmailsAux fuel r

/-- The e-mail substitution of `mask_pii`. -/
def maskEmails (cs : List Char) : List Char :=
  maskEmailsAux cs.length cs

/-- One `\d{1,3}` group of the IPv4 pattern: the digit run at the head of
`cs`, failing when it is empty or longer than three characters (a shorter
parse is impossible because the following pattern character is `.` for the
first three groups and a `\b` for the last one, while the next character of
the text would remain a digit). -/
def ipGroup (cs : List Char) : Option (List Char × List Char) :=
  if (cs.takeWhile isDigitA).isEmpty || decide (3 < (cs.takeWhile isDigitA).length) then none
  else some (cs.takeWhile isDigitA, cs.dropWhile isDigitA)

/-- Model of the trailing `\b` of the IPv4 pattern: the previous character is
a digit (a word character), so the boundary holds iff the text ends or the
next character is a non-word character. -/
def rightBdry : List Char → Bool
  | [] => true
  | c :: _ => !isWordChar c

/-- Literal `\.` of the IPv4 pattern: consume one dot. -/
def expectDot : List Char → Option (List Char)
  | '.' :: r => some r
  | _ => none

/-- Attempt of `(?:\d{1,3}\.){3}\d{1,3}\b` at the start of `cs` (the leading
`\b` is checked by the caller `findIP`); returns (matched, rest). -/
def matchIPAt (cs : List Char) : Option (List Char × List Char) :=
  (ipGroup cs).bind fun p1 =>
  (expectDot p1.2).bind fun r1 =>
  (ipGroup r1).bind fun p2 =>
  (expectDot p2.2).bind fun r2 =>
  (ipGroup r2).bind fun p3 =>
  (expectDot p3.2).bind fun r3 =>
  (ipGroup r3).bind fun p4 =>
  if rightBdry p4.2 then
    some (p1.1 ++ '.' :: (p2.1 ++ '.' :: (p3.1 ++ '.' :: p4.1)), p4.2)
  else none

/-- Model of the leading `\b` of the IPv4 pattern: the first matched character
is a digit (a word character), so the boundary holds iff the match is at the
start of the text or the previous character is a non-word character. -/
def prevOK : Option Char → Bool
  | none => true
  | some c => !isWordChar c

/-- Leftmost-match scan of the IPv4 pattern, carrying the previous character
for the `\b` assertion; returns (skipped prefix, matched, rest). -/
def findIP : Option Char → List Char → Option (List Char × List Char × List Char)
  | _, [] => none
  | prev, c :: cs =>
    match (if prevOK prev then matchIPAt (c :: cs) else none) with
    | some (m, r) => some ([], m, r)
    | none =>
      match findIP (some c) cs with
      | some (a, m, r) => some (c :: a, m, r)
      | none => none

theorem ipGroup_append {cs d r} (h : ipGroup cs = some (d, r)) :
    cs = d ++ r ∧ d ≠ [] ∧ d.length ≤ 3 ∧ (∀ c ∈ d, isDigitA c = true) := by
  unfold ipGroup at h
  split at h
  · simp at h
  next hcond =>
    simp only [Bool.or_eq_true, not_or, List.isEmpty_eq_true, decide_eq_true_eq] at hcond
    obtain ⟨h1, h2⟩ := hcond
    simp only [Option.some.injEq, Prod.mk.injEq] at h
    obtain ⟨hd, hr⟩ := h
    subst hd hr
    refine ⟨(List.takeWhile_append_dropWhile _ _).symm, by simpa using h1, by omega, ?_⟩
    intro x hx
    exact List.mem_takeWhile_imp hx

theorem expectDot_append {cs r} (h : expectDot cs = some r) : cs = '.' :: r := by
  unfold expectDot at h
  split at h
  · simp only [Option.some.injEq] at h
    subst h
    rfl
  · simp at h

theorem matchIPAt_append {cs m r} (h : matchIPAt cs = some (m, r)) :
    cs = m ++ r ∧ m ≠ [] := by
  unfold matchIPAt at h
  simp only [Option.bind_eq_some] at h
  obtain ⟨⟨d1, s1⟩, h1, ⟨t1, hd1, ⟨⟨d2, s2⟩, h2, ⟨t2, hd2, ⟨⟨d3, s3⟩, h3, ⟨t3, hd3,
    ⟨⟨d4, s4⟩, h4, hfin⟩⟩⟩⟩⟩⟩⟩ := h
  by_cases hb : rightBdry s4 = true
  · simp only [hb, if_true, Option.some.injEq, Prod.mk.injEq] at hfin
    obtain ⟨hm, hr⟩ := hfin
    obtain ⟨e1, hne1, _, _⟩ := ipGroup_append h1
    obtain ⟨e2, _, _, _⟩ := ipGroup_append h2
    obtain ⟨e3, _, _, _⟩ := ipGroup_append h3
    obtain ⟨e4, _, _, _⟩ := ipGroup_append h4
    have hs1 : s1 = '.' :: t1 := expectDot_append hd1
    have hs2 : s2 = '.' :: t2 := expectDot_append hd2
    have hs3 : s3 = '.' :: t3 := expectDot_append hd3
    subst hm hr
    constructor
    · rw [e1, hs1, e2, hs2, e3, hs3, e4]
      simp
    · intro hfalse
      rw [List.append_eq_nil] at hfalse
      exact hne1 hfalse.1
  · simp [hb] at hfin

theorem findIP_append {prev cs a m r} (h : findIP prev cs = some (a, m, r)) :
    cs = a ++ m ++ r ∧ m ≠ [] := by
  induction cs generalizing prev a m r with
  | nil => simp [findIP] at h
  | cons c rest ih =>
    rw [findIP] at h
    cases hm : (if prevOK prev then matchIPAt (c :: rest) else none) with
    | some mr =>
      obtain ⟨m', r'⟩ := mr
      have hmatch : matchIPAt (c :: rest) = some (m', r') := by
        by_cases hp : prevOK prev = true
        · rw [hp] at hm; simpa using hm
        · rw [Bool.not_eq_true] at hp; rw [hp] at hm; simp at hm
      rw [hm] at h
      simp only [Option.some.injEq, Prod.mk.injEq] at h
      obtain ⟨ha, hm2, hr⟩ := h
      subst ha hm2 hr
      obtain ⟨h1, h2⟩ := matchIPAt_append hmatch
      exact ⟨by rw [List.nil_append]; exact h1, h2⟩
    | none =>
      rw [hm] at h
      cases hrec : findIP (some c) rest with
      | some amr =>
        obtain ⟨a', m', r'⟩ := amr
        rw [hrec] at h
        simp only [Option.some.injEq, Prod.mk.injEq] at h
        obtain ⟨ha, hm2, hr⟩ := h
        subst ha hm2 hr
        obtain ⟨h1, h2⟩ := ih hrec
        exact ⟨by rw [h1]; simp, h2⟩
      | none => rw [hrec] at h; simp at h

theorem findIP_rest_lt {prev cs a m r} (h : findIP prev cs = some (a, m, r)) :
    r.length < cs.length := by
  obtain ⟨h1, h2⟩ := findIP_append h
  rw [h1]
  simp only [List.length_append]
  have : 0 < m.length := List.length_pos.mpr h2
  omega

/-- Model of `re.sub` for the IPv4 pattern of `mask_pii` (cleaners.py
line 25): replace every non-overlapping leftmost match (with its `\b`
assertions evaluated in the original text) by the sentinel `|||IP|||`.  The
scan resumes after each match with the last matched character (always a
digit) as previous-character context, exactly as `re.sub` resumes at the end
offset of the match.  Fuel-driven like `maskEmailsAux`. -/
def maskIPsAux : Nat → Option Char → List Char → List Char
  | 0, _, cs => cs
  | fuel + 1, prev, cs =>
    match findIP prev cs with
    | none => cs
    | some (a, m, r) => a ++ ipSentinel ++ maskIPsAux fuel m.getLast? r

/-- The IPv4 substitution of `mask_pii`, with previous-character context. -/
def maskIPs (prev : Option Char) (cs : List Char) : List Char :=
  maskIPsAux cs.length prev cs

/-- Embedding of `mask_pii` (cleaners.py lines 13-27): first the e-mail
substitution, then the IPv4 substitution. -/
def mask_pii (s : String) : String :=
  String.mk (maskIPs none (maskEmails s.toList))

/-- JSON-compatible Python values, as produced by `json.loads` and consumed by
the loaders and the filter.  Numbers are modelled as integers (no claim
involves floating point). -/
inductive PyVal where
  | str : String → PyVal
  | num : Int → PyVal
  | bool : Bool → PyVal
  | null : PyVal
  | list : List PyVal → PyVal
  | dict : List (String × PyVal) → PyVal

/-- Records yielded by the stream reader: the key-value pairs of a JSON
object (`json.loads` keeps the last value of a duplicate key, so keys are
unique and the first lookup hit is the dict entry). -/
abbrev Record := List (String × PyVal)

/-- Single-quote character, used by the simplified Python repr below. -/
def squote : String := String.singleton (Char.ofNat 39)

mutual

/-- Python repr() of a value, for the container fallback of `str()`.
Simplified: strings inside containers are wrapped in single quotes without
escaping.  No claim exercises this fallback; the pipeline only converts
string-valued fields. -/
def pyRepr : PyVal → String
  | .str s => squote ++ s ++ squote
  | .num n => toString n
  | .bool true => "True"
  | .bool false => "False"
  | .null => "None"
  | .list xs => "[" ++ pyReprList xs ++ "]"
  | .dict kvs => "\x7b" ++ pyReprKVs kvs ++ "\x7d"

def pyReprList : List PyVal → String
  | [] => ""
  | [x] => pyRepr x
  | x :: xs => pyRepr x ++ ", " ++ pyReprList xs

def pyReprKVs : List (String × PyVal) → String
  | [] => ""
  | [(k, v)] => squote ++ k ++ squote ++ ": " ++ pyRepr v
  | (k, v) :: xs => squote ++ k ++ squote ++ ": " ++ pyRepr v ++ ", " ++ pyReprKVs xs

end

/-- Python str() of a value (`filter_record` applies `str(text)` and
`load_dolly15k` formats fields with an f-string). -/
def pyStr : PyVal → String
  | .str s => s
  | v => pyRepr v

/-- Python dict.get(key, default). -/
def dictGet (kvs : Record) (k : String) (d : PyVal) : PyVal :=
  match List.lookup k kvs with
  | some v => v
  | none => d

/-- ASCII model of the whitespace class stripped by Python str.strip(). -/
def isPyWs (c : Char) : Bool :=
  c == ' ' || c == Char.ofNat 9 || c == Char.ofNat 10 || c == Char.ofNat 13 ||
  c == Char.ofNat 11 || c == Char.ofNat 12

/-- Python str.strip(): drop leading and trailing whitespace. -/
def pyStrip (s : String) : String :=
  String.mk (((s.toList.dropWhile isPyWs).reverse.dropWhile isPyWs).reverse)

/-- Python exceptions distinguished by the embedding. -/
inductive PyErr where
  | attributeError
  | fileNotFound
  | valueError
  | osError
  | unicodeDecodeError
  | jsonDecodeError
deriving DecidableEq

/-- Embedding of `is_english` (cleaners.py lines 29-48).  The langdetect
capability is the parameter `detect`; `detect text = none` models the
detector raising internally, which the source catches, logs and turns into
`False`; otherwise the detected code is compared with "en". -/
def is_english (detect : String → Option String) (text : String) : Bool :=
  match detect text with
  | some lang => lang == "en"
  | none => false

/-- Embedding of `filter_record` (filters.py lines 13-43).  The tokenizer
capability is the parameter `tokenizer`; only the length of its result is
used, as in the source.  Python evaluates `rec.get("text", "")` first; a
non-dict argument has no `.get` attribute, so that call raises
AttributeError.  The Python default arguments are `min_tokens = 5`,
`max_tokens = 1024` (passed explicitly by the model of the call sites). -/
def filter_record (rec : PyVal) (tokenizer : String → List Nat)
    (detect : String → Option String) (min_tokens max_tokens : Nat) :
    Except PyErr Bool :=
  match rec with
  | .dict kvs =>
    let text := pyStrip (pyStr (dictGet kvs "text" (.str "")))
    if text == "" then .ok true
    else if !is_english detect text then .ok true
    else
      let token_count := (tokenizer text).length
      if token_count < min_tokens || max_tokens < token_count then .ok true
      else .ok false
  | _ => .error .attributeError

/-- Embedding of `load_dolly15k` (loaders.py lines 1-16): the three fields
joined by newlines via an f-string (which applies `str()` to each), then
stripped. -/
def load_dolly15k (rec : Record) : String :=
  let prompt := pyStr (dictGet rec "prompt" (.str ""))
  let context := pyStr (dictGet rec "context" (.str ""))
  let response := pyStr (dictGet rec "response" (.str ""))
  pyStrip (prompt ++ "\n" ++ context ++ "\n" ++ response)

/-- Error policies of the stream reader (io_utils.py): "raise" | "skip" |
"log", represented as a closed enumeration. -/
inductive Policy where
  | abort
  | skip
  | log
deriving DecidableEq

/-- One physical line of an input file, abstracted to exactly the features
`stream_jsonl` inspects: whether `raw.strip()` is empty, whether the line
starts with a BOM, whether it contains the replacement character U+FFFD
(stripping the BOM cannot change this), and the result of `json.loads` on
the raw line (`parsed`) and on the BOM-stripped line (`parsedNoBom`,
consulted only when the BOM is actually stripped); `none` models a
JSONDecodeError. -/
structure Line where
  blank : Bool
  bom : Bool
  repl : Bool
  parsed : Option PyVal
  parsedNoBom : Option PyVal

/-- Configuration of `stream_jsonl` (io_utils.py lines 75-83).  The byte
decoding itself (`encoding`, `decode_errors`) is abstracted into the `Line`
fields.  A validator exception is modelled by `Except.error`. -/
structure StreamCfg where
  onBadJson : Policy
  onBadDecode : Policy
  validator : Option (PyVal → Except Unit Bool)
  stripBom : Bool

/-- The Python default arguments of `stream_jsonl`: `on_bad_json="raise"`,
`on_bad_decode="skip"`, `validator=None`, `strip_bom=True`. -/
def defaultStreamCfg : StreamCfg :=
  { onBadJson := Policy.abort
    onBadDecode := Policy.skip
    validator := none
    stripBom := true }

/-- Diagnostics logged by the stream reader, tagged with the 1-based line
number (io_utils.py logs the line number in every message). -/
inductive Diag where
  | decodeWarn : Nat → Diag
  | badJsonWarn : Nat → Diag
  | validatorExc : Nat → Diag
  | validationFailed : Nat → Diag
  | nonDictWarn : Nat → Diag
deriving DecidableEq

/-- Processing of one non-blank line of `stream_jsonl` (io_utils.py lines
130-160), after BOM handling: the U+FFFD check (skipped entirely under the
"skip" policy), `json.loads`, the validator (an exception is caught, logged
and treated as a failed validation), then the unconditional
is-it-a-dict check.  Returns the yielded record, if any, with the
diagnostics of this line, or the propagated exception. -/
def processLine (cfg : StreamCfg) (n : Nat) (useBom : Bool) (l : Line) :
    Except PyErr (Option Record × List Diag) :=
  if cfg.onBadDecode == Policy.abort && l.repl then .error .unicodeDecodeError
  else
    let dDiags := if cfg.onBadDecode == Policy.log && l.repl then [Diag.decodeWarn n] else []
    match (if useBom then l.parsedNoBom else l.parsed) with
    | none =>
      match cfg.onBadJson with
      | Policy.abort => .error .jsonDecodeError
      | Policy.log => .ok (none, dDiags ++ [Diag.badJsonWarn n])
      | Policy.skip => .ok (none, dDiags)
    | some v =>
      match cfg.validator with
      | some f =>
        match f v with
        | .error _ => .ok (none, dDiags ++ [Diag.validatorExc n, Diag.validationFailed n])
        | .ok false => .ok (none, dDiags ++ [Diag.validationFailed n])
        | .ok true =>
          match v with
          | .dict kvs => .ok (some kvs, dDiags)
          | _ => .ok (none, dDiags ++ [Diag.nonDictWarn n])
      | none =>
        match v with
        | .dict kvs => .ok (some kvs, dDiags)
        | _ => .ok (none, dDiags ++ [Diag.nonDictWarn n])

/-- Line loop of `stream_jsonl` (io_utils.py lines 113-160): `n` is the
1-based line number (blank lines are counted), `saw` is the `saw_content`
flag governing the one-shot BOM strip.  The generator is modelled eagerly:
the full record sequence is produced, or the exception that aborts the
sequence. -/
def streamAux (cfg : StreamCfg) : Nat → Bool → List Line →
    Except PyErr (List Record × List Diag)
  | _, _, [] => .ok ([], [])
  | n, saw, l :: ls =>
    if l.blank then streamAux cfg (n + 1) saw ls
    else
      match processLine cfg n (cfg.stripBom && !saw && l.bom) l with
      | .error e => .error e
      | .ok (orec, ds) =>
        match streamAux cfg (n + 1) true ls with
        | .error e => .error e
        | .ok (rs, ds2) => .ok (orec.toList ++ rs, ds ++ ds2)

/-- Embedding of `stream_jsonl` (io_utils.py lines 75-160) on the abstracted
line sequence of the input file. -/
def stream_jsonl (cfg : StreamCfg) (lines : List Line) :
    Except PyErr (List Record × List Diag) :=
  streamAux cfg 1 false lines

/-- Hexadecimal digit (lowercase), for the `\uXXXX` escapes of json.dumps. -/
def hexDigit (n : Nat) : Char :=
  if n < 10 then Char.ofNat (48 + n) else Char.ofNat (87 + (n - 10))

/-- Four hexadecimal digits. -/
def hex4 (n : Nat) : String :=
  String.mk [hexDigit (n / 4096 % 16), hexDigit (n / 256 % 16),
             hexDigit (n / 16 % 16), hexDigit (n % 16)]

/-- Escaping of one character by `json.dumps` with its default
`ensure_ascii=True`: the two-character escapes, `\uXXXX` for other control
or non-ASCII characters, and a surrogate pair beyond the BMP. -/
def jsonEscapeChar (c : Char) : String :=
  if c == '"' then "\\\""
  else if c == '\\' then "\\\\"
  else if c == Char.ofNat 10 then "\\n"
  else if c == Char.ofNat 13 then "\\r"
  else if c == Char.ofNat 9 then "\\t"
  else if c == Char.ofNat 8 then "\\b"
  else if c == Char.ofNat 12 then "\\f"
  else if decide (c.toNat < 32) || decide (126 < c.toNat) then
    if decide (c.toNat < 65536) then "\\u" ++ hex4 c.toNat
    else
      "\\u" ++ hex4 (55296 + (c.toNat - 65536) / 1024) ++
      "\\u" ++ hex4 (56320 + (c.toNat - 65536) % 1024)
  else String.singleton c

/-- JSON string literal produced by `json.dumps` for a Python string. -/
def jsonQuote (s : String) : String :=
  "\"" ++ String.join (s.toList.map jsonEscapeChar) ++ "\""

/-- The line `process_file` writes for a kept record (main.py line 66):
`json.dumps({"text": text})` with the default separators.  The trailing
newline of the write is the line separator of the output file model. -/
def outputLine (text : String) : String :=
  "\x7b\"text\": " ++ jsonQuote text ++ "\x7d"

/-- State of the two file-system paths `process_file` touches: the content of
the output target path and of its temporary sibling file, `none` when the
path does not exist.  A (gzip-compressed) JSONL file content is modelled as
its list of lines. -/
structure FS where
  output : Option (List String)
  temp : Option (List String)
deriving DecidableEq

/-- The record loop in the `try` block of `process_file` (main.py lines
58-67): for each streamed record, extract text with the loader, mask PII,
then call `filter_record(text, tokenizer)` — passing the extracted STRING
where `filter_record` expects a dict.  Returns the list of written lines, or
the first exception. -/
def writeLoop (loader : Record → String) (tok : String → List Nat)
    (det : String → Option String) : List Record → Except PyErr (List String)
  | [] => .ok []
  | r :: rs =>
    let text := mask_pii (loader r)
    match filter_record (PyVal.str text) tok det 5 1024 with
    | .error e => .error e
    | .ok true => writeLoop loader tok det rs
    | .ok false =>
      match writeLoop loader tok det rs with
      | .error e => .error e
      | .ok ls => .ok (outputLine text :: ls)

/-- The whole `try` block of `process_file` up to the final content of the
temporary file (main.py lines 57-67): stream the input (with the default
`stream_jsonl` configuration, as called on line 58) and run the record loop.
The lazy generator is modelled eagerly; this is outcome-equivalent because a
stream exception and a loop exception lead to the same abort path, and the
partially written temporary content is discarded there. -/
def processBody (lines : List Line) (loader : Record → String)
    (tok : String → List Nat) (det : String → Option String) :
    Except PyErr (List String) :=
  match stream_jsonl defaultStreamCfg lines with
  | .error e => .error e
  | .ok (recs, _) => writeLoop loader tok det recs

/-- Embedding of `process_file` (main.py lines 19-81).  Validation errors
(missing input, wrong output extension) and an exception while creating the
temporary file (main.py lines 49-55, OUTSIDE the try block) propagate as
`Except.error`; the existence checks and the `.jsonl.gz` suffix check are
abstracted to the booleans `inputExists`, `suffixOk`, and `tempCreateOk`
models whether `tempfile.NamedTemporaryFile` itself succeeds.  Inside the
`try` block any exception is caught: the temporary file is unlinked and
`False` is returned with the output path untouched.  On success the
temporary file is atomically renamed onto the output path (the rename is
modelled as succeeding) and `True` is returned. -/
def process_file (preOut : Option (List String)) (inputExists suffixOk tempCreateOk : Bool)
    (lines : List Line) (loader : Record → String) (tok : String → List Nat)
    (det : String → Option String) : Except PyErr (Bool × FS) :=
  if !inputExists then .error .fileNotFound
  else if !suffixOk then .error .valueError
  else if !tempCreateOk then .error .osError
  else
    match processBody lines loader tok det with
    | .error _ => .ok (false, { output := preOut, temp := none })
    | .ok ls => .ok (true, { output := some ls, temp := none })

/-- A non-blank input line holding one valid JSON object (no BOM); `repl`
states whether it contains U+FFFD. -/
def objLine (repl : Bool) (r : Record) : Line :=
  { blank := false, bom := false, repl := repl,
    parsed := some (PyVal.dict r), parsedNoBom := some (PyVal.dict r) }

/-- A blank or whitespace-only input line. -/
def blankLine : Line :=
  { blank := true, bom := false, repl := false, parsed := none, parsedNoBom := none }

/-- A non-blank line parsing to a JSON value that need not be an object. -/
def nonDictLine (v : PyVal) : Line :=
  { blank := false, bom := false, repl := false, parsed := some v, parsedNoBom := some v }

/-- Encoding of a clean input file for the round-trip claim: `some r` is a
line holding the JSON object `r`, `none` a blank line. -/
def encLine : Option Record → Line
  | some r => objLine false r
  | none => blankLine

/-- C1: for every input whose stream yields at least one record (with the
input existing, the output suffix valid and the temporary file created),
`process_file` returns False, the temporary file is gone and the output
target is exactly as before the call: the loop passes the extracted text
STRING to `filter_record`, whose first action `rec.get("text", "")` raises
AttributeError on a string, so the first record takes the abort path. -/
theorem c1_first_record_always_aborts (preOut : Option (List String)) (lines : List Line)
    (loader : Record → String) (tok : String → List Nat) (det : String → Option String)
    (r : Record) (rs : List Record) (ds : List Diag)
    (h : stream_jsonl defaultStreamCfg lines = .ok (r :: rs, ds)) :
    process_file preOut true true true lines loader tok det =
      .ok (false, { output := preOut, temp := none }) := by
  unfold process_file processBody
  rw [h]
  simp [writeLoop, filter_record]

theorem c1_first_record_always_aborts_witness :
    process_file (some ["keep"]) true true true [objLine false [("a", PyVal.num 1)]]
      (fun _ => "x") (fun _ => []) (fun _ => some "en") =
      .ok (false, { output := some ["keep"], temp := none }) :=
  c1_first_record_always_aborts (some ["keep"]) _ _ _ _ [("a", PyVal.num 1)] [] [] (by rfl)

/-- C3: if the `try` block of `process_file` fails at any point after the
transaction is opened (any exception while streaming, transforming,
filtering or writing, modelled by `processBody` returning an error), then
the call returns a result (no exception escapes), the result is False, the
output target content is exactly its pre-call content (in particular a
non-existing target still does not exist) and the temporary file no longer
exists. -/
theorem c3_abort_leaves_target_and_removes_temp (preOut : Option (List String))
    (lines : List Line) (loader : Record → String) (tok : String → List Nat)
    (det : String → Option String) (e : PyErr)
    (h : processBody lines loader tok det = .error e) :
    ∃ res : Bool × FS, process_file preOut true true true lines loader tok det = .ok res ∧
      res.1 = false ∧ res.2.output = preOut ∧ res.2.temp = none := by
  refine ⟨(false, { output := preOut, temp := none }), ?_, rfl, rfl, rfl⟩
  simp [process_file, h]

theorem c3_abort_leaves_target_and_removes_temp_witness :
    ∃ res : Bool × FS,
      process_file (some ["pre1", "pre2"]) true true true
        [objLine false [("text", PyVal.str "hello there")]]
        (fun _ => "hello there") (fun _ => [0]) (fun _ => some "en") = .ok res ∧
      res.1 = false ∧ res.2.output = some ["pre1", "pre2"] ∧ res.2.temp = none :=
  c3_abort_leaves_target_and_removes_temp (some ["pre1", "pre2"]) _ _ _ _
    PyErr.attributeError (by rfl)

/-- C4 counterexample: an exception raised while creating the temporary file
(`tempfile.NamedTemporaryFile`, main.py lines 49-55) happens BEFORE the
`try` block, so it propagates out of `process_file` instead of producing the
failure value False that the claim asserts for every exception after input
validation. -/
theorem c4_counterexample_temp_creation_propagates :
    process_file none true true false [] (fun _ => "x") (fun _ => []) (fun _ => some "en") =
      .error PyErr.osError := rfl

/-- C4 as amended: every exception raised inside the `try` block — while
opening the gzip stream over the temporary file, streaming, transforming,
filtering or writing — is caught and `process_file` returns False; but an
exception while creating the temporary file itself propagates (see the
counterexample). -/
theorem c4_amended_try_block_errors_return_false (preOut : Option (List String))
    (lines : List Line) (loader : Record → String) (tok : String → List Nat)
    (det : String → Option String) (e : PyErr)
    (h : processBody lines loader tok det = .error e) :
    process_file preOut true true true lines loader tok det =
      .ok (false, { output := preOut, temp := none }) := by
  simp [process_file, h]

theorem c4_amended_try_block_errors_return_false_witness :
    process_file none true true true [objLine false [("b", PyVal.null)]]
      (fun _ => "y") (fun _ => []) (fun _ => none) =
      .ok (false, { output := none, temp := none }) :=
  c4_amended_try_block_errors_return_false none _ _ _ _ PyErr.attributeError (by rfl)

/-- C10: for an existing input from which the stream reader yields zero
records (for example an empty file or one of blank lines only) and a valid
`.jsonl.gz` target, `process_file` commits the transaction and returns True:
the output target is created (or replaced) with zero lines, and the
temporary file is gone (renamed onto the target). -/
theorem c10_empty_stream_commits_empty_output (preOut : Option (List String))
    (lines : List Line) (loader : Record → String) (tok : String → List Nat)
    (det : String → Option String) (ds : List Diag)
    (h : stream_jsonl defaultStreamCfg lines = .ok ([], ds)) :
    process_file preOut true true true lines loader tok det =
      .ok (true, { output := some [], temp := none }) := by
  unfold process_file processBody
  rw [h]
  simp [writeLoop]

theorem c10_empty_stream_commits_empty_output_witness :
    process_file (some ["old content"]) true true true [blankLine, blankLine]
      (fun _ => "x") (fun _ => []) (fun _ => some "en") =
      .ok (true, { output := some [], temp := none }) :=
  c10_empty_stream_commits_empty_output (some ["old content"]) _ _ _ _ [] (by rfl)

/-- C2 counterexample: for the record of the end-to-end scenario the default
loader returns "Hi\n\nthere" — the empty context contributes an empty middle
line, `str.strip` only trims the ends — not the single-newline text
"Hi\nthere" the claim states. -/
theorem c2_counterexample_loader_text :
    load_dolly15k [("prompt", PyVal.str "Hi"), ("context", PyVal.str ""),
      ("response", PyVal.str "there")] ≠ "Hi\nthere" := by
  decide

/-- C2 as amended: for the input record of the scenario the default loader
returns exactly "Hi\n\nthere" (prompt, empty context and response joined by
newlines, then stripped); masking leaves that text unchanged, and the line
`process_file` writes for it when a record's text is kept is the JSON object
with the two newlines escaped. -/
theorem c2_amended_loader_and_output_line :
    load_dolly15k [("prompt", PyVal.str "Hi"), ("context", PyVal.str ""),
      ("response", PyVal.str "there")] = "Hi\n\nthere" ∧
    mask_pii "Hi\n\nthere" = "Hi\n\nthere" ∧
    outputLine "Hi\n\nthere" = "\x7b\"text\": \"Hi\\n\\nthere\"\x7d" :=
  ⟨rfl, rfl, rfl⟩

/-- C5: on a dict record whose "text" value is the string `s` (or is absent,
with `s = ""` the default), the filter returns drop (True) exactly when the
trimmed text is empty, or is not classified as the target language, or its
token count is strictly below `min_tokens` or strictly above `max_tokens`;
in particular a token count equal to either bound (with the other conditions
passing) is kept (False). -/
theorem c5_filter_drop_iff (kvs : Record) (tok : String → List Nat)
    (det : String → Option String) (mn mx : Nat) (s : String)
    (h : dictGet kvs "text" (PyVal.str "") = PyVal.str s) :
    filter_record (PyVal.dict kvs) tok det mn mx =
      .ok (pyStrip s == "" || !is_english det (pyStrip s) ||
           decide ((tok (pyStrip s)).length < mn) ||
           decide (mx < (tok (pyStrip s)).length)) := by
  have hred : filter_record (PyVal.dict kvs) tok det mn mx =
      (if pyStrip (pyStr (dictGet kvs "text" (PyVal.str ""))) == "" then Except.ok true
       else if !is_english det (pyStrip (pyStr (dictGet kvs "text" (PyVal.str "")))) then
         Except.ok true
       else if decide ((tok (pyStrip (pyStr (dictGet kvs "text" (PyVal.str ""))))).length < mn)
               || decide (mx < (tok (pyStrip (pyStr (dictGet kvs "text"
                    (PyVal.str ""))))).length) then Except.ok true
       else Except.ok false) := rfl
  rw [hred, h]
  simp only [pyStr]
  cases hb1 : (pyStrip s == "") with
  | true => simp [hb1]
  | false =>
    cases hb2 : is_english det (pyStrip s) with
    | false => simp [hb1, hb2]
    | true =>
      by_cases hb3 : (tok (pyStrip s)).length < mn
      · simp [hb1, hb2, hb3]
      · by_cases hb4 : mx < (tok (pyStrip s)).length
        · simp [hb1, hb2, hb3, hb4]
        · simp [hb1, hb2, hb3, hb4]

theorem c5_filter_drop_iff_witness :
    filter_record (PyVal.dict [("text", PyVal.str "hello")])
      (fun _ => [0, 1, 2, 3, 4]) (fun _ => some "en") 5 1024 = .ok false := by
  have h := c5_filter_drop_iff [("text", PyVal.str "hello")]
    (fun _ => [0, 1, 2, 3, 4]) (fun _ => some "en") 5 1024 "hello" rfl
  rw [h]
  rfl

theorem processLine_default_obj (n : Nat) (useBom : Bool) (repl : Bool) (r : Record) :
    processLine defaultStreamCfg n useBom (objLine repl r) = .ok (some r, []) := by
  cases useBom <;> cases repl <;> rfl

theorem streamAux_cons_blank (cfg : StreamCfg) (n : Nat) (saw : Bool) (l : Line)
    (ls : List Line) (hb : l.blank = true) :
    streamAux cfg n saw (l :: ls) = streamAux cfg (n + 1) saw ls := by
  rw [streamAux, hb]
  simp

theorem streamAux_cons_nonblank (cfg : StreamCfg) (n : Nat) (saw : Bool) (l : Line)
    (ls : List Line) (orec : Option Record) (ds : List Diag) (rs : List Record)
    (ds2 : List Diag) (hb : l.blank = false)
    (hp : processLine cfg n (cfg.stripBom && !saw && l.bom) l = .ok (orec, ds))
    (hs : streamAux cfg (n + 1) true ls = .ok (rs, ds2)) :
    streamAux cfg n saw (l :: ls) = .ok (orec.toList ++ rs, ds ++ ds2) := by
  rw [streamAux, hb]
  simp only [Bool.false_eq_true, if_false]
  rw [hp, hs]

/-- C6: for a file of lines each holding one valid JSON object, with blank or
whitespace-only lines interspersed at arbitrary positions (`items` lists the
object lines and the blank lines in file order), the stream reader with its
default configuration yields exactly the objects, in file order, skipping
exactly the blank lines — with no diagnostics and no error.  The
no-blank-lines round trip is the special case where `items` has no `none`
entry. -/
theorem c6_stream_reader_round_trip (items : List (Option Record)) :
    stream_jsonl defaultStreamCfg (items.map encLine) = .ok (items.reduceOption, []) := by
  unfold stream_jsonl
  suffices h : ∀ n saw, streamAux defaultStreamCfg n saw (items.map encLine) =
      .ok (items.reduceOption, []) from h 1 false
  induction items with
  | nil => intro n saw; rfl
  | cons it rest ih =>
    intro n saw
    cases it with
    | none =>
      simp only [List.map_cons, List.reduceOption_cons_of_none]
      show streamAux defaultStreamCfg n saw (blankLine :: rest.map encLine) = _
      rw [streamAux_cons_blank defaultStreamCfg n saw blankLine (rest.map encLine) rfl]
      exact ih (n + 1) saw
    | some r =>
      simp only [List.map_cons, List.reduceOption_cons_of_some]
      show streamAux defaultStreamCfg n saw (objLine false r :: rest.map encLine) = _
      rw [streamAux_cons_nonblank defaultStreamCfg n saw _ _ (some r) [] rest.reduceOption []
            rfl (processLine_default_obj n _ false r) (ih (n + 1) true)]
      rfl

/-- C8 counterexample: under the default configuration (`on_bad_decode` not
supplied) a line containing U+FFFD is accepted silently — the record is
yielded and the diagnostic list is empty — whereas passing the "log" policy
for the same input produces the diagnostic the claim ascribes to the
default.  So the default does not behave as the "log" policy. -/
theorem c8_counterexample_default_is_silent :
    stream_jsonl defaultStreamCfg [objLine true [("a", PyVal.num 1)]] =
      .ok ([[("a", PyVal.num 1)]], []) ∧
    stream_jsonl { defaultStreamCfg with onBadDecode := Policy.log }
      [objLine true [("a", PyVal.num 1)]] =
      .ok ([[("a", PyVal.num 1)]], [Diag.decodeWarn 1]) :=
  ⟨rfl, rfl⟩

/-- C8 as amended: when the caller does not supply `on_bad_decode` it
defaults to "skip", under which the U+FFFD check is bypassed entirely: a
line containing the decode-error placeholder is processed like any other
line, yielding its record with no diagnostic; the logged-diagnostic
behaviour only occurs when "log" is passed explicitly. -/
theorem c8_amended_default_skip_is_silent (r : Record) :
    defaultStreamCfg.onBadDecode = Policy.skip ∧
    stream_jsonl defaultStreamCfg [objLine true r] = .ok ([r], []) := by
  exact ⟨rfl, rfl⟩

/-- C9 counterexample: with a caller-supplied validator that rejects
everything, a line parsing to a bare list is handed to the validator — the
logged diagnostic is the validation failure, not the non-object warning the
claim predicts — so the validator is invoked on a value that is not a JSON
object, contradicting the claimed ordering. -/
theorem c9_counterexample_validator_sees_non_object :
    stream_jsonl { defaultStreamCfg with validator := some (fun _ => Except.ok false) }
      [nonDictLine (PyVal.list [])] = .ok ([], [Diag.validationFailed 1]) :=
  rfl

/-- C9 as amended: the unconditional not-an-object skip happens AFTER the
validator step (io_utils.py lines 146-158): a present validator is invoked
on every successfully parsed value, objects and non-objects alike, and only
values it passes reach the non-object check, which then warns and skips. -/
theorem c9_amended_validator_runs_before_dict_check (f : PyVal → Except Unit Bool)
    (v : PyVal) (hv : ∀ kvs, v ≠ PyVal.dict kvs) :
    stream_jsonl { defaultStreamCfg with validator := some f } [nonDictLine v] =
      .ok ([], match f v with
               | .error _ => [Diag.validatorExc 1, Diag.validationFailed 1]
               | .ok false => [Diag.validationFailed 1]
               | .ok true => [Diag.nonDictWarn 1]) := by
  unfold stream_jsonl streamAux
  simp only [nonDictLine, Bool.false_eq_true, if_false]
  rw [show streamAux { defaultStreamCfg with validator := some f } 2 true [] = .ok ([], []) from rfl]
  unfold processLine
  cases hf : f v with
  | error u => simp [hf]
  | ok b =>
    cases b with
    | false => simp [hf]
    | true =>
      cases v with
      | dict kvs => exact absurd rfl (hv kvs)
      | str s => simp [hf]
      | num n => simp [hf]
      | bool b => simp [hf]
      | null => simp [hf]
      | list xs => simp [hf]

theorem c9_amended_validator_runs_before_dict_check_witness :
    stream_jsonl { defaultStreamCfg with validator := some (fun _ => Except.ok true) }
      [nonDictLine (PyVal.list [])] = .ok ([], [Diag.nonDictWarn 1]) := by
  have h := c9_amended_validator_runs_before_dict_check (fun _ => Except.ok true)
    (PyVal.list []) (fun kvs hk => PyVal.noConfusion hk)
  simpa using h

theorem takeWhile_append_stop {p : Char → Bool} {l r : List Char} {c : Char}
    (hl : ∀ x ∈ l, p x = true) (hc : p c = false) :
    (l ++ c :: r).takeWhile p = l ∧ (l ++ c :: r).dropWhile p = c :: r := by
  induction l with
  | nil => simp [List.takeWhile, List.dropWhile, hc]
  | cons a l' ih =>
    have ha : p a = true := hl a (List.mem_cons_self a l')
    have ih2 := ih (fun x hx => hl x (List.mem_cons_of_mem a hx))
    constructor
    · simp [List.takeWhile_cons, ha, ih2.1]
    · simp [List.dropWhile_cons, ha, ih2.2]

theorem takeWhile_append_all {p : Char → Bool} {u : List Char} (v : List Char)
    (hu : ∀ x ∈ u, p x = true) :
    (u ++ v).takeWhile p = u ++ v.takeWhile p ∧ (u ++ v).dropWhile p = v.dropWhile p := by
  induction u with
  | nil => simp
  | cons a u' ih =>
    have ha : p a = true := hu a (List.mem_cons_self a u')
    have ih2 := ih (fun x hx => hu x (List.mem_cons_of_mem a hx))
    constructor
    · simp [List.takeWhile_cons, ha, ih2.1]
    · simp [List.dropWhile_cons, ha, ih2.2]

/-- The language of the e-mail pattern
`[A-Za-z0-9._-]+@[A-Za-z0-9._-]+\.[A-Za-z]{2,}`: `re.sub` replaces some
substring iff some substring of the text belongs to this language. -/
def InEmail (m : List Char) : Prop :=
  ∃ l d t, m = l ++ '@' :: (d ++ '.' :: t) ∧
    l ≠ [] ∧ (∀ c ∈ l, isEmailChar c = true) ∧
    d ≠ [] ∧ (∀ c ∈ d, isEmailChar c = true) ∧
    2 ≤ t.length ∧ (∀ c ∈ t, isLetterA c = true)

/-- No decomposition of `s` exhibits an e-mail match. -/
def EmailFree (s : List Char) : Prop :=
  ∀ x m y, s = x ++ m ++ y → ¬InEmail m

theorem isEmailChar_of_letter {c : Char} (h : isLetterA c = true) : isEmailChar c = true := by
  simp [isEmailChar, h]

theorem isWordChar_of_digit {c : Char} (h : isDigitA c = true) : isWordChar c = true := by
  simp [isWordChar, h]

theorem not_pipe_of_emailChar {c : Char} (h : isEmailChar c = true) : c ≠ '|' := by
  intro he
  subst he
  exact absurd h (by decide)

theorem not_pipe_of_letter {c : Char} (h : isLetterA c = true) : c ≠ '|' := by
  intro he
  subst he
  exact absurd h (by decide)

theorem InEmail.email_ne_nil {m : List Char} (h : InEmail m) : m ≠ [] := by
  obtain ⟨l, d, t, hm, _⟩ := h
  subst hm
  simp

theorem InEmail.has_at {m : List Char} (h : InEmail m) : '@' ∈ m := by
  obtain ⟨l, d, t, hm, _⟩ := h
  subst hm
  simp

theorem InEmail.email_no_pipe {m : List Char} (h : InEmail m) : '|' ∉ m := by
  obtain ⟨l, d, t, hm, _, hlE, _, hdE, _, htL⟩ := h
  subst hm
  intro hmem
  simp only [List.mem_append, List.mem_cons] at hmem
  rcases hmem with hl | hat | hd | hdot | ht
  · exact not_pipe_of_emailChar (hlE _ hl) rfl
  · exact absurd hat.symm (by decide)
  · exact not_pipe_of_emailChar (hdE _ hd) rfl
  · exact absurd hdot.symm (by decide)
  · exact not_pipe_of_letter (htL _ ht) rfl

theorem emailFree_of_no_at {s : List Char} (h : '@' ∉ s) : EmailFree s := by
  intro x m y heq hin
  apply h
  rw [heq]
  simp only [List.mem_append]
  exact Or.inl (Or.inr hin.has_at)

theorem emailFree_infix {s p u q : List Char} (h : EmailFree s) (heq : s = p ++ u ++ q) :
    EmailFree u := by
  intro x m y hu hin
  exact h (p ++ x) m (y ++ q) (by rw [heq, hu]; simp) hin

/-- Splitting a three-part decomposition across a two-part concatenation:
the middle part lies in the left part, in the right part, or spans the seam. -/
theorem split_middle {x m y A B : List Char} (h : x ++ m ++ y = A ++ B) :
    (∃ y1, A = x ++ m ++ y1 ∧ y = y1 ++ B) ∨
    (∃ x1, B = x1 ++ m ++ y ∧ x = A ++ x1) ∨
    (∃ m1 m2, m = m1 ++ m2 ∧ m1 ≠ [] ∧ m2 ≠ [] ∧ A = x ++ m1 ∧ B = m2 ++ y) := by
  rw [List.append_assoc] at h
  rcases List.append_eq_append_iff.mp h with ⟨a2, hA, hmy⟩ | ⟨c2, hx, hB⟩
  · rcases List.append_eq_append_iff.mp hmy with ⟨a3, ha2, hy⟩ | ⟨c3, hm, hB2⟩
    · left
      exact ⟨a3, by rw [hA, ha2, List.append_assoc], hy⟩
    · by_cases ha2 : a2 = []
      · right; left
        refine ⟨[], ?_, by simp [hA, ha2]⟩
        rw [List.nil_append, hB2, hm, ha2, List.nil_append]
      · by_cases hc3 : c3 = []
        · left
          exact ⟨[], by simp [hA, hm, hc3], by simp [hB2, hc3]⟩
        · right; right
          exact ⟨a2, c3, hm, ha2, hc3, by rw [hA], hB2⟩
  · right; left
    exact ⟨c2, by rw [hB, List.append_assoc], hx⟩

theorem last_mem_of_concat_eq {A0 x m1 : List Char} {c : Char}
    (h : x ++ m1 = A0 ++ [c]) (hm1 : m1 ≠ []) : c ∈ m1 := by
  have h1 : m1.getLast? = some c := by
    rw [← List.getLast?_append_of_ne_nil x hm1, h]
    simp
  obtain ⟨hne, heq⟩ := List.mem_getLast?_eq_getLast (by rw [h1]; rfl)
  rw [heq]
  exact List.getLast_mem hne

theorem head_mem_of_cons_eq {B0 y m2 : List Char} {c : Char}
    (h : m2 ++ y = c :: B0) (hm2 : m2 ≠ []) : c ∈ m2 := by
  cases m2 with
  | nil => exact absurd rfl hm2
  | cons a m2' =>
    rw [List.cons_append] at h
    rw [← (List.cons.injEq a (m2' ++ y) c B0).mp h |>.1]
    exact List.mem_cons_self a m2'

theorem emailFree_append_pipeL {A B : List Char} (hA : EmailFree A) (hB : EmailFree B)
    (h : ∃ A0, A = A0 ++ [Char.ofNat 124]) : EmailFree (A ++ B) := by
  intro x m y heq hin
  rcases split_middle heq.symm with ⟨y1, h1, _⟩ | ⟨x1, h1, _⟩ | ⟨m1, m2, hm, hm1, _, h1, _⟩
  · exact hA x m y1 h1 hin
  · exact hB x1 m y h1 hin
  · obtain ⟨A0, hA0⟩ := h
    have hmem : Char.ofNat 124 ∈ m1 := last_mem_of_concat_eq (by rw [← h1, hA0]) hm1
    exact hin.email_no_pipe (by rw [hm]; exact List.mem_append_left m2 hmem)

theorem emailFree_append_pipeR {A B : List Char} (hA : EmailFree A) (hB : EmailFree B)
    (h : ∃ B0, B = Char.ofNat 124 :: B0) : EmailFree (A ++ B) := by
  intro x m y heq hin
  rcases split_middle heq.symm with ⟨y1, h1, _⟩ | ⟨x1, h1, _⟩ | ⟨m1, m2, hm, _, hm2, _, h2⟩
  · exact hA x m y1 h1 hin
  · exact hB x1 m y h1 hin
  · obtain ⟨B0, hB0⟩ := h
    have hmem : Char.ofNat 124 ∈ m2 := head_mem_of_cons_eq (by rw [← h2, hB0]) hm2
    exact hin.email_no_pipe (by rw [hm]; exact List.mem_append_right m1 hmem)

theorem maskEmailsAux_congr : ∀ (f1 : Nat) {cs : List Char} (f2 : Nat),
    cs.length ≤ f1 → cs.length ≤ f2 → maskEmailsAux f1 cs = maskEmailsAux f2 cs := by
  intro f1
  induction f1 with
  | zero =>
    intro cs f2 h1 _
    have : cs = [] := List.length_eq_zero.mp (Nat.le_zero.mp h1)
    subst this
    cases f2 with
    | zero => rfl
    | succ g => rfl
  | succ n ih =>
    intro cs f2 h1 h2
    cases f2 with
    | zero =>
      have : cs = [] := List.length_eq_zero.mp (Nat.le_zero.mp h2)
      subst this
      rfl
    | succ g =>
      rw [maskEmailsAux, maskEmailsAux]
      cases hf : findEmail cs with
      | none => rfl
      | some amr =>
        obtain ⟨a, m, r⟩ := amr
        have hlt : r.length < cs.length := findEmail_rest_lt hf
        show a ++ emailSentinel ++ maskEmailsAux n r = a ++ emailSentinel ++ maskEmailsAux g r
        rw [ih g (by omega) (by omega)]

theorem maskEmails_of_none {cs : List Char} (h : findEmail cs = none) :
    maskEmails cs = cs := by
  unfold maskEmails
  cases hl : cs.length with
  | zero => rfl
  | succ n => rw [maskEmailsAux, h]

theorem maskEmails_of_some {cs a m r : List Char} (h : findEmail cs = some (a, m, r)) :
    maskEmails cs = a ++ emailSentinel ++ maskEmails r := by
  have hlt : r.length < cs.length := findEmail_rest_lt h
  unfold maskEmails
  cases hl : cs.length with
  | zero => omega
  | succ n =>
    rw [maskEmailsAux, h]
    show a ++ emailSentinel ++ maskEmailsAux n r = a ++ emailSentinel ++ maskEmails r
    unfold maskEmails
    rw [show maskEmailsAux n r = maskEmailsAux r.length r from
      maskEmailsAux_congr n r.length (by omega) (le_refl _)]

theorem findDomSplit_complete {y : List Char} (hlen : 2 ≤ (y.takeWhile isLetterA).length) :
    ∀ (x : List Char) {run : List Char}, run = x ++ '.' :: y →
      ∃ d t l, findDomSplit run = some (d, t, l) := by
  intro x
  induction x with
  | nil =>
    intro run h
    subst h
    have hstep : findDomSplit ('.' :: y) = (match findDomSplit y with
      | some (d, t, l) => some ('.' :: d, t, l)
      | none =>
        if ('.' : Char) == '.' then
          if 2 ≤ (y.takeWhile isLetterA).length then
            some ([], y.takeWhile isLetterA, y.dropWhile isLetterA)
          else none
        else none) := rfl
    cases hy : findDomSplit y with
    | some dtl =>
      obtain ⟨d, t, l⟩ := dtl
      refine ⟨'.' :: d, t, l, ?_⟩
      rw [List.nil_append, hstep, hy]
    | none =>
      refine ⟨[], y.takeWhile isLetterA, y.dropWhile isLetterA, ?_⟩
      rw [List.nil_append, hstep, hy]
      simp [hlen]
  | cons c x' ih =>
    intro run h
    subst h
    obtain ⟨d, t, l, hds⟩ := ih rfl
    refine ⟨c :: d, t, l, ?_⟩
    have hstep : findDomSplit (c :: (x' ++ '.' :: y)) =
        (match findDomSplit (x' ++ '.' :: y) with
          | some (d, t, l) => some (c :: d, t, l)
          | none =>
            if c == '.' then
              if 2 ≤ ((x' ++ '.' :: y).takeWhile isLetterA).length then
                some ([], (x' ++ '.' :: y).takeWhile isLetterA,
                  (x' ++ '.' :: y).dropWhile isLetterA)
              else none
            else none) := rfl
    simp only [List.cons_append]
    rw [hstep, hds]

theorem findDomSplit_ne_nil {x y run d t l : List Char} (hx : x ≠ [])
    (h : run = x ++ '.' :: y) (hlen : 2 ≤ (y.takeWhile isLetterA).length)
    (hds : findDomSplit run = some (d, t, l)) : d ≠ [] := by
  cases x with
  | nil => exact absurd rfl hx
  | cons c x' =>
    subst h
    obtain ⟨d', t', l', hds'⟩ := findDomSplit_complete hlen x' rfl
    have hstep : findDomSplit (c :: (x' ++ '.' :: y)) =
        (match findDomSplit (x' ++ '.' :: y) with
          | some (d, t, l) => some (c :: d, t, l)
          | none =>
            if c == '.' then
              if 2 ≤ ((x' ++ '.' :: y).takeWhile isLetterA).length then
                some ([], (x' ++ '.' :: y).takeWhile isLetterA,
                  (x' ++ '.' :: y).dropWhile isLetterA)
              else none
            else none) := rfl
    simp only [List.cons_append] at hds
    rw [hstep, hds'] at hds
    simp only [Option.some.injEq, Prod.mk.injEq] at hds
    rw [← hds.1]
    simp

theorem matchEmailAt_unfold {cs l inner : List Char}
    (h1 : cs.takeWhile isEmailChar = l) (h2 : cs.dropWhile isEmailChar = '@' :: inner) :
    matchEmailAt cs =
      (if l.isEmpty then none
       else match findDomSplit (inner.takeWhile isEmailChar) with
         | some (d, t, ll) =>
           if d.isEmpty then none
           else some (l ++ '@' :: (d ++ '.' :: t), ll ++ inner.dropWhile isEmailChar)
         | none => none) := by
  unfold matchEmailAt
  rw [h2, h1]
  rfl

theorem matchEmailAt_complete {m b : List Char} (h : InEmail m) :
    matchEmailAt (m ++ b) ≠ none := by
  obtain ⟨l, d, t, hm, hl, hlE, hd, hdE, ht2, htL⟩ := h
  subst hm
  have e1 : l ++ '@' :: (d ++ '.' :: t) ++ b = l ++ '@' :: (d ++ '.' :: (t ++ b)) := by
    simp
  rw [e1]
  have htw := takeWhile_append_stop (p := isEmailChar) (l := l) (c := '@')
    (r := d ++ '.' :: (t ++ b)) hlE (by decide)
  have hdt : ∀ c ∈ d ++ '.' :: t, isEmailChar c = true := by
    intro c hc
    simp only [List.mem_append, List.mem_cons] at hc
    rcases hc with hc | hc | hc
    · exact hdE c hc
    · subst hc; decide
    · exact isEmailChar_of_letter (htL c hc)
  have hrun := takeWhile_append_all (p := isEmailChar) (u := d ++ '.' :: t) b hdt
  have hrun1 : (d ++ '.' :: (t ++ b)).takeWhile isEmailChar =
      d ++ '.' :: (t ++ b.takeWhile isEmailChar) := by
    have := hrun.1
    simp only [List.append_assoc, List.cons_append] at this ⊢
    exact this
  have hlt : 2 ≤ ((t ++ b.takeWhile isEmailChar).takeWhile isLetterA).length := by
    have := (takeWhile_append_all (p := isLetterA) (b.takeWhile isEmailChar) htL).1
    rw [this]
    simp only [List.length_append]
    omega
  obtain ⟨dd, tt, ll, hds⟩ := findDomSplit_complete hlt d hrun1
  have hddne : dd ≠ [] := findDomSplit_ne_nil hd hrun1 hlt hds
  have hle : l.isEmpty = false := by
    cases l with
    | nil => exact absurd rfl hl
    | cons a l0 => rfl
  have hdde : dd.isEmpty = false := by
    cases dd with
    | nil => exact absurd rfl hddne
    | cons a d0 => rfl
  rw [matchEmailAt_unfold htw.1 htw.2]
  simp [hle, hds, hdde]

theorem matchEmailAt_inEmail {cs m r : List Char} (h : matchEmailAt cs = some (m, r)) :
    InEmail m := by
  unfold matchEmailAt at h
  split at h
  next rest2 hdw =>
    by_cases hloc : (cs.takeWhile isEmailChar).isEmpty
    · simp [hloc] at h
    · simp only [hloc, Bool.false_eq_true, if_false] at h
      cases hds : findDomSplit (rest2.takeWhile isEmailChar) with
      | none => rw [hds] at h; simp at h
      | some dtl =>
        obtain ⟨d, t, l⟩ := dtl
        rw [hds] at h
        by_cases hd : d.isEmpty
        · simp [hd] at h
        · simp only [hd, Bool.false_eq_true, if_false, Option.some.injEq, Prod.mk.injEq] at h
          obtain ⟨hm, _⟩ := h
          obtain ⟨hrun, htF, ht2⟩ := findDomSplit_append hds
          refine ⟨cs.takeWhile isEmailChar, d, t, hm.symm, ?_, ?_, ?_, ?_, ht2, htF⟩
          · intro hnil
            rw [hnil] at hloc
            exact hloc rfl
          · intro c hc
            exact List.mem_takeWhile_imp hc
          · intro hnil
            rw [hnil] at hd
            exact hd rfl
          · intro c hc
            have hc2 : c ∈ rest2.takeWhile isEmailChar := by
              rw [hrun]
              exact List.mem_append_left _ hc
            exact List.mem_takeWhile_imp hc2
  next hne => simp at h

theorem findEmail_inEmail {cs a m r : List Char} (h : findEmail cs = some (a, m, r)) :
    InEmail m := by
  induction cs generalizing a m r with
  | nil => simp [findEmail] at h
  | cons c rest ih =>
    rw [findEmail] at h
    cases hm : matchEmailAt (c :: rest) with
    | some mr =>
      obtain ⟨m', r'⟩ := mr
      rw [hm] at h
      simp only [Option.some.injEq, Prod.mk.injEq] at h
      obtain ⟨_, hm2, _⟩ := h
      rw [← hm2]
      exact matchEmailAt_inEmail hm
    | none =>
      rw [hm] at h
      cases hrec : findEmail rest with
      | some amr =>
        obtain ⟨a', m', r'⟩ := amr
        rw [hrec] at h
        simp only [Option.some.injEq, Prod.mk.injEq] at h
        obtain ⟨_, hm2, _⟩ := h
        rw [← hm2]
        exact ih hrec
      | none => rw [hrec] at h; simp at h

theorem findEmail_none_no_match {cs : List Char} (h : findEmail cs = none) :
    ∀ x y, cs = x ++ y → matchEmailAt y = none := by
  induction cs with
  | nil =>
    intro x y hxy
    have h2 : y = [] := (List.append_eq_nil.mp hxy.symm).2
    rw [h2]
    rfl
  | cons c rest ih =>
    have hinv : matchEmailAt (c :: rest) = none ∧ findEmail rest = none := by
      rw [findEmail] at h
      cases hm : matchEmailAt (c :: rest) with
      | some mr => obtain ⟨m', r'⟩ := mr; rw [hm] at h; simp at h
      | none =>
        rw [hm] at h
        cases hrec : findEmail rest with
        | some amr => obtain ⟨a, m, r⟩ := amr; rw [hrec] at h; simp at h
        | none => exact ⟨rfl, rfl⟩
    intro x y hxy
    cases x with
    | nil =>
      have : y = c :: rest := by simpa using hxy.symm
      rw [this]
      exact hinv.1
    | cons c0 x' =>
      rw [List.cons_append] at hxy
      have h1 := (List.cons.injEq c rest c0 (x' ++ y)).mp hxy
      exact ih hinv.2 x' y h1.2

theorem findEmail_some_prefix {cs a m r : List Char} (h : findEmail cs = some (a, m, r)) :
    ∀ a1 a2, a = a1 ++ a2 → a2 ≠ [] → matchEmailAt (a2 ++ (m ++ r)) = none := by
  induction cs generalizing a with
  | nil => simp [findEmail] at h
  | cons c rest ih =>
    rw [findEmail] at h
    cases hm : matchEmailAt (c :: rest) with
    | some mr =>
      obtain ⟨m', r'⟩ := mr
      rw [hm] at h
      simp only [Option.some.injEq, Prod.mk.injEq] at h
      obtain ⟨ha, _, _⟩ := h
      intro a1 a2 hsplit hne
      rw [← ha] at hsplit
      exact absurd (List.append_eq_nil.mp hsplit.symm).2 hne
    | none =>
      rw [hm] at h
      cases hrec : findEmail rest with
      | some amr =>
        obtain ⟨a', m', r'⟩ := amr
        rw [hrec] at h
        simp only [Option.some.injEq, Prod.mk.injEq] at h
        obtain ⟨ha, hm2, hr⟩ := h
        rw [hm2, hr] at hrec
        intro a1 a2 hsplit hne
        cases a1 with
        | nil =>
          have ha2 : a2 = c :: a' := by rw [← ha] at hsplit; simpa using hsplit.symm
          have hrest : rest = a' ++ (m ++ r) := by
            have happ := (findEmail_append hrec).1
            rw [happ, List.append_assoc]
          rw [ha2, show (c :: a') ++ (m ++ r) = c :: rest from by rw [hrest]; rfl]
          exact hm
        | cons c0 a1' =>
          rw [← ha, List.cons_append] at hsplit
          have h1 := (List.cons.injEq c a' c0 (a1' ++ a2)).mp hsplit
          exact ih hrec a1' a2 h1.2 hne
      | none => rw [hrec] at h; simp at h

theorem emailFree_of_findEmail_none {cs : List Char} (h : findEmail cs = none) :
    EmailFree cs := by
  intro x m y heq hin
  have hnone := findEmail_none_no_match h x (m ++ y) (by rw [heq, List.append_assoc])
  exact matchEmailAt_complete hin hnone

theorem emailFree_nil : EmailFree ([] : List Char) := by
  intro x m y heq hin
  have : m = [] := by
    have := (List.append_eq_nil.mp heq.symm).1
    exact (List.append_eq_nil.mp this).2
  exact hin.email_ne_nil this

theorem emailFree_maskEmails (cs : List Char) : EmailFree (maskEmails cs) := by
  suffices H : ∀ n cs2, List.length cs2 ≤ n → EmailFree (maskEmails cs2) from
    H cs.length cs (le_refl _)
  intro n
  induction n with
  | zero =>
    intro cs2 hl
    have : cs2 = [] := List.length_eq_zero.mp (Nat.le_zero.mp hl)
    subst this
    rw [show maskEmails ([] : List Char) = [] from rfl]
    exact emailFree_nil
  | succ n ih =>
    intro cs2 hl
    cases hf : findEmail cs2 with
    | none =>
      rw [maskEmails_of_none hf]
      exact emailFree_of_findEmail_none hf
    | some amr =>
      obtain ⟨a, m, r⟩ := amr
      rw [maskEmails_of_some hf]
      have hlt : r.length < cs2.length := findEmail_rest_lt hf
      have hfree_r : EmailFree (maskEmails r) := ih r (by omega)
      have hfree_s : EmailFree emailSentinel := emailFree_of_no_at (by decide)
      have hfree_a : EmailFree a := by
        intro u m' v heq hin
        have hnone := findEmail_some_prefix hf u (m' ++ v) (by rw [heq, List.append_assoc])
          (by simp [hin.email_ne_nil])
        have := matchEmailAt_complete (b := v ++ (m ++ r)) hin
        apply this
        rw [← hnone]
        congr 1
        simp [List.append_assoc]
      have hB : EmailFree (emailSentinel ++ maskEmails r) :=
        emailFree_append_pipeL hfree_s hfree_r
          ⟨'|' :: '|' :: '|' :: 'E' :: 'M' :: 'A' :: 'I' :: 'L' :: '|' :: '|' :: [], rfl⟩
      have hAB : EmailFree (a ++ (emailSentinel ++ maskEmails r)) :=
        emailFree_append_pipeR hfree_a hB ⟨_, rfl⟩
      rw [List.append_assoc]
      exact hAB

theorem maskEmails_of_emailFree {cs : List Char} (h : EmailFree cs) :
    maskEmails cs = cs := by
  cases hf : findEmail cs with
  | none => exact maskEmails_of_none hf
  | some amr =>
    obtain ⟨a, m, r⟩ := amr
    have happ := (findEmail_append hf).1
    exact absurd (findEmail_inEmail hf) (h a m r (by rw [happ, List.append_assoc]))

/-- The language of `(?:\d{1,3}\.){3}\d{1,3}` (the IPv4 pattern without its
boundary assertions). -/
def IPCore (m : List Char) : Prop :=
  ∃ d1 d2 d3 d4 : List Char,
    m = d1 ++ '.' :: (d2 ++ '.' :: (d3 ++ '.' :: d4)) ∧
    (d1 ≠ [] ∧ d1.length ≤ 3 ∧ ∀ c ∈ d1, isDigitA c = true) ∧
    (d2 ≠ [] ∧ d2.length ≤ 3 ∧ ∀ c ∈ d2, isDigitA c = true) ∧
    (d3 ≠ [] ∧ d3.length ≤ 3 ∧ ∀ c ∈ d3, isDigitA c = true) ∧
    (d4 ≠ [] ∧ d4.length ≤ 3 ∧ ∀ c ∈ d4, isDigitA c = true)

/-- The leading `\b` of the IPv4 pattern, for a match preceded by the text
`x`, which itself is preceded by `prev` (the character before the scanned
region, `none` at the start of the string). -/
def LeftBdry (prev : Option Char) (x : List Char) : Prop :=
  (x = [] ∧ prevOK prev = true) ∨ ∃ x0 c, x = x0 ++ [c] ∧ isWordChar c = false

/-- No decomposition of `s` (scanned with previous-character context `prev`)
exhibits an IPv4 match with valid boundaries. -/
def IPFreeFrom (prev : Option Char) (s : List Char) : Prop :=
  ∀ x m y, s = x ++ m ++ y → IPCore m → LeftBdry prev x → rightBdry y = true → False

theorem IPCore.ip_ne_nil {m : List Char} (h : IPCore m) : m ≠ [] := by
  obtain ⟨d1, d2, d3, d4, hm, _⟩ := h
  subst hm
  simp

theorem IPCore.chars {m : List Char} (h : IPCore m) :
    ∀ c ∈ m, isDigitA c = true ∨ c = '.' := by
  obtain ⟨d1, d2, d3, d4, hm, h1, h2, h3, h4⟩ := h
  subst hm
  intro c hc
  simp only [List.mem_append, List.mem_cons] at hc
  rcases hc with hc | hc | hc | hc | hc | hc | hc
  · exact Or.inl (h1.2.2 c hc)
  · exact Or.inr hc
  · exact Or.inl (h2.2.2 c hc)
  · exact Or.inr hc
  · exact Or.inl (h3.2.2 c hc)
  · exact Or.inr hc
  · exact Or.inl (h4.2.2 c hc)

theorem IPCore.ip_no_pipe {m : List Char} (h : IPCore m) : '|' ∉ m := by
  intro hmem
  rcases h.chars '|' hmem with hd | hd
  · exact absurd hd (by decide)
  · exact absurd hd (by decide)

theorem IPCore.head_digit {m : List Char} (h : IPCore m) :
    ∃ ch m0, m = ch :: m0 ∧ isDigitA ch = true := by
  obtain ⟨d1, d2, d3, d4, hm, h1, _⟩ := h
  cases hd1 : d1 with
  | nil => exact absurd hd1 h1.1
  | cons ch d0 =>
    subst hm hd1
    exact ⟨ch, d0 ++ '.' :: (d2 ++ '.' :: (d3 ++ '.' :: d4)), rfl,
      h1.2.2 ch (List.mem_cons_self _ _)⟩

theorem IPCore.last_digit {m : List Char} (h : IPCore m) :
    ∀ c, m.getLast? = some c → isDigitA c = true := by
  obtain ⟨d1, d2, d3, d4, hm, _, _, _, h4⟩ := h
  subst hm
  intro c hc
  have h1 : (d1 ++ '.' :: (d2 ++ '.' :: (d3 ++ '.' :: d4))).getLast? = d4.getLast? := by
    rw [List.getLast?_append_of_ne_nil _ (by simp)]
    rw [show ('.' :: (d2 ++ '.' :: (d3 ++ '.' :: d4)) : List Char) =
      ['.'] ++ (d2 ++ '.' :: (d3 ++ '.' :: d4)) from rfl]
    rw [List.getLast?_append_of_ne_nil _ (by simp)]
    rw [List.getLast?_append_of_ne_nil _ (by simp)]
    rw [show ('.' :: (d3 ++ '.' :: d4) : List Char) = ['.'] ++ (d3 ++ '.' :: d4) from rfl]
    rw [List.getLast?_append_of_ne_nil _ (by simp)]
    rw [List.getLast?_append_of_ne_nil _ (by simp [h4.1])]
    rw [show ('.' :: d4 : List Char) = ['.'] ++ d4 from rfl]
    rw [List.getLast?_append_of_ne_nil _ h4.1]
  rw [h1] at hc
  obtain ⟨hne, heq⟩ := List.mem_getLast?_eq_getLast (by rw [hc]; rfl)
  rw [heq]
  exact h4.2.2 _ (List.getLast_mem hne)

theorem ipGroup_complete {d rest : List Char} (hne : d ≠ []) (hlen : d.length ≤ 3)
    (hdig : ∀ c ∈ d, isDigitA c = true)
    (hrest : rest = [] ∨ ∃ c r0, rest = c :: r0 ∧ isDigitA c = false) :
    ipGroup (d ++ rest) = some (d, rest) := by
  have htw : (d ++ rest).takeWhile isDigitA = d ∧ (d ++ rest).dropWhile isDigitA = rest := by
    rcases hrest with h | ⟨c, r0, hr, hc⟩
    · subst h
      rw [List.append_nil]
      constructor
      · exact List.takeWhile_eq_self_iff.mpr hdig
      · exact List.dropWhile_eq_nil_iff.mpr (fun x hx => hdig x hx)
    · subst hr
      exact takeWhile_append_stop hdig hc
  have hie : d.isEmpty = false := by
    cases d with
    | nil => exact absurd rfl hne
    | cons a d0 => rfl
  unfold ipGroup
  rw [htw.1, htw.2, hie]
  simp [Nat.not_lt.mpr hlen]

theorem bind_some_eq {α β : Type} (a : α) (f : α → Option β) :
    (some a).bind f = f a := rfl

theorem expectDot_cons (r : List Char) : expectDot ('.' :: r) = some r := rfl

theorem matchIPAt_complete {m b : List Char} (hc : IPCore m) (hb : rightBdry b = true) :
    matchIPAt (m ++ b) = some (m, b) := by
  obtain ⟨d1, d2, d3, d4, hm, h1, h2, h3, h4⟩ := hc
  subst hm
  have e : d1 ++ '.' :: (d2 ++ '.' :: (d3 ++ '.' :: d4)) ++ b =
      d1 ++ '.' :: (d2 ++ '.' :: (d3 ++ '.' :: (d4 ++ b))) := by simp
  rw [e]
  have hb4 : b = [] ∨ ∃ c r0, b = c :: r0 ∧ isDigitA c = false := by
    cases hbb : b with
    | nil => exact Or.inl rfl
    | cons c r0 =>
      refine Or.inr ⟨c, r0, rfl, ?_⟩
      rw [hbb] at hb
      have hb2 : (!isWordChar c) = true := hb
      cases hdc : isDigitA c with
      | false => rfl
      | true =>
        rw [isWordChar_of_digit hdc] at hb2
        simp at hb2
  have g1 : ipGroup (d1 ++ '.' :: (d2 ++ '.' :: (d3 ++ '.' :: (d4 ++ b)))) =
      some (d1, '.' :: (d2 ++ '.' :: (d3 ++ '.' :: (d4 ++ b)))) :=
    ipGroup_complete h1.1 h1.2.1 h1.2.2 (Or.inr ⟨'.', _, rfl, by decide⟩)
  have g2 : ipGroup (d2 ++ '.' :: (d3 ++ '.' :: (d4 ++ b))) =
      some (d2, '.' :: (d3 ++ '.' :: (d4 ++ b))) :=
    ipGroup_complete h2.1 h2.2.1 h2.2.2 (Or.inr ⟨'.', _, rfl, by decide⟩)
  have g3 : ipGroup (d3 ++ '.' :: (d4 ++ b)) = some (d3, '.' :: (d4 ++ b)) :=
    ipGroup_complete h3.1 h3.2.1 h3.2.2 (Or.inr ⟨'.', _, rfl, by decide⟩)
  have g4 : ipGroup (d4 ++ b) = some (d4, b) :=
    ipGroup_complete h4.1 h4.2.1 h4.2.2 hb4
  unfold matchIPAt
  rw [g1, bind_some_eq]
  rw [expectDot_cons, bind_some_eq]
  rw [g2, bind_some_eq]
  rw [expectDot_cons, bind_some_eq]
  rw [g3, bind_some_eq]
  rw [expectDot_cons, bind_some_eq]
  rw [g4, bind_some_eq]
  rw [hb]
  simp

theorem matchIPAt_sound {cs m r : List Char} (h : matchIPAt cs = some (m, r)) :
    cs = m ++ r ∧ IPCore m ∧ rightBdry r = true := by
  unfold matchIPAt at h
  simp only [Option.bind_eq_some] at h
  obtain ⟨⟨d1, s1⟩, h1, ⟨t1, hd1, ⟨⟨d2, s2⟩, h2, ⟨t2, hd2, ⟨⟨d3, s3⟩, h3, ⟨t3, hd3,
    ⟨⟨d4, s4⟩, h4, hfin⟩⟩⟩⟩⟩⟩⟩ := h
  by_cases hb : rightBdry s4 = true
  · simp only [hb, if_true, Option.some.injEq, Prod.mk.injEq] at hfin
    obtain ⟨hm, hr⟩ := hfin
    obtain ⟨e1, hne1, hl1, hg1⟩ := ipGroup_append h1
    obtain ⟨e2, hne2, hl2, hg2⟩ := ipGroup_append h2
    obtain ⟨e3, hne3, hl3, hg3⟩ := ipGroup_append h3
    obtain ⟨e4, hne4, hl4, hg4⟩ := ipGroup_append h4
    have hs1 : s1 = '.' :: t1 := expectDot_append hd1
    have hs2 : s2 = '.' :: t2 := expectDot_append hd2
    have hs3 : s3 = '.' :: t3 := expectDot_append hd3
    refine ⟨?_, ?_, by rw [← hr]; exact hb⟩
    · rw [e1, hs1, e2, hs2, e3, hs3, e4, ← hm, ← hr]
      simp
    · exact ⟨d1, d2, d3, d4, hm.symm, ⟨hne1, hl1, hg1⟩, ⟨hne2, hl2, hg2⟩,
        ⟨hne3, hl3, hg3⟩, ⟨hne4, hl4, hg4⟩⟩
  · simp [hb] at hfin

theorem findIP_sound {prev : Option Char} {cs a m r : List Char}
    (h : findIP prev cs = some (a, m, r)) :
    cs = a ++ m ++ r ∧ IPCore m ∧ LeftBdry prev a ∧ rightBdry r = true := by
  induction cs generalizing prev a m r with
  | nil => simp [findIP] at h
  | cons c rest ih =>
    rw [findIP] at h
    cases hm : (if prevOK prev then matchIPAt (c :: rest) else none) with
    | some mr =>
      obtain ⟨m', r'⟩ := mr
      have hp : prevOK prev = true := by
        by_cases hp : prevOK prev = true
        · exact hp
        · rw [Bool.not_eq_true] at hp
          rw [hp] at hm
          simp at hm
      have hmatch : matchIPAt (c :: rest) = some (m', r') := by
        rw [hp] at hm
        simpa using hm
      rw [hm] at h
      simp only [Option.some.injEq, Prod.mk.injEq] at h
      obtain ⟨ha, hm2, hr⟩ := h
      rw [hm2, hr] at hmatch
      obtain ⟨he, hcore, hrb⟩ := matchIPAt_sound hmatch
      refine ⟨?_, hcore, ?_, hrb⟩
      · rw [← ha]
        simpa using he
      · rw [← ha]
        exact Or.inl ⟨rfl, hp⟩
    | none =>
      rw [hm] at h
      cases hrec : findIP (some c) rest with
      | some amr =>
        obtain ⟨a', m', r'⟩ := amr
        rw [hrec] at h
        simp only [Option.some.injEq, Prod.mk.injEq] at h
        obtain ⟨ha, hm2, hr⟩ := h
        rw [hm2, hr] at hrec
        obtain ⟨he, hcore, hlb, hrb⟩ := ih hrec
        refine ⟨by rw [← ha, he]; simp, hcore, ?_, hrb⟩
        rw [← ha]
        rcases hlb with ⟨hnil, hpk⟩ | ⟨x0, c0, hx, hw⟩
        · subst hnil
          refine Or.inr ⟨[], c, rfl, ?_⟩
          have hpk2 : (!isWordChar c) = true := hpk
          simpa using hpk2
        · exact Or.inr ⟨c :: x0, c0, by simp [hx], hw⟩
      | none => rw [hrec] at h; simp at h

theorem findIP_none_no_match {prev : Option Char} {cs : List Char}
    (h : findIP prev cs = none) :
    ∀ x y, cs = x ++ y → LeftBdry prev x → matchIPAt y = none := by
  induction cs generalizing prev with
  | nil =>
    intro x y hxy _
    have h2 : y = [] := (List.append_eq_nil.mp hxy.symm).2
    rw [h2]
    rfl
  | cons c rest ih =>
    have hinv : (prevOK prev = true → matchIPAt (c :: rest) = none) ∧
        findIP (some c) rest = none := by
      rw [findIP] at h
      cases hm : (if prevOK prev then matchIPAt (c :: rest) else none) with
      | some mr =>
        obtain ⟨m', r'⟩ := mr
        rw [hm] at h
        simp at h
      | none =>
        constructor
        · intro hp
          rw [hp] at hm
          simpa using hm
        · cases hrec : findIP (some c) rest with
          | some amr =>
            obtain ⟨a, m, r⟩ := amr
            rw [hm, hrec] at h
            simp at h
          | none => rfl
    intro x y hxy hlb
    cases x with
    | nil =>
      have hy : y = c :: rest := by simpa using hxy.symm
      rcases hlb with ⟨_, hp⟩ | ⟨x0, c0, hx, _⟩
      · rw [hy]
        exact hinv.1 hp
      · exact absurd hx (by simp)
    | cons c0 x' =>
      rw [List.cons_append] at hxy
      have h1 := (List.cons.injEq c rest c0 (x' ++ y)).mp hxy
      apply ih hinv.2 x' y h1.2
      rcases hlb with ⟨hnil, _⟩ | ⟨x0, c1, hx, hw⟩
      · exact absurd hnil (by simp)
      · cases x0 with
        | nil =>
          simp only [List.nil_append] at hx
          have h2 := (List.cons.injEq c0 x' c1 []).mp hx
          refine Or.inl ⟨h2.2, ?_⟩
          show (!isWordChar c) = true
          rw [h1.1, h2.1]
          simp [hw]
        | cons c2 x0' =>
          rw [List.cons_append] at hx
          have h2 := (List.cons.injEq c0 x' c2 (x0' ++ [c1])).mp hx
          exact Or.inr ⟨x0', c1, h2.2, hw⟩

theorem findIP_some_prefix {prev : Option Char} {cs a m r : List Char}
    (h : findIP prev cs = some (a, m, r)) :
    ∀ a1 a2, a = a1 ++ a2 → a2 ≠ [] → LeftBdry prev a1 →
      matchIPAt (a2 ++ (m ++ r)) = none := by
  induction cs generalizing prev a with
  | nil => simp [findIP] at h
  | cons c rest ih =>
    rw [findIP] at h
    cases hm : (if prevOK prev then matchIPAt (c :: rest) else none) with
    | some mr =>
      obtain ⟨m', r'⟩ := mr
      rw [hm] at h
      simp only [Option.some.injEq, Prod.mk.injEq] at h
      obtain ⟨ha, _, _⟩ := h
      intro a1 a2 hsplit hne _
      rw [← ha] at hsplit
      exact absurd (List.append_eq_nil.mp hsplit.symm).2 hne
    | none =>
      rw [hm] at h
      cases hrec : findIP (some c) rest with
      | some amr =>
        obtain ⟨a', m', r'⟩ := amr
        rw [hrec] at h
        simp only [Option.some.injEq, Prod.mk.injEq] at h
        obtain ⟨ha, hm2, hr⟩ := h
        rw [hm2, hr] at hrec
        intro a1 a2 hsplit hne hlb
        cases a1 with
        | nil =>
          have ha2 : a2 = c :: a' := by
            rw [← ha] at hsplit
            simpa using hsplit.symm
          rcases hlb with ⟨_, hp⟩ | ⟨x0, c0, hx, _⟩
          · have hrest : rest = a' ++ (m ++ r) := by
              have happ := (findIP_append hrec).1
              rw [happ, List.append_assoc]
            rw [ha2, show (c :: a') ++ (m ++ r) = c :: rest from by rw [hrest]; rfl]
            rw [hp] at hm
            simpa using hm
          · exact absurd hx (by simp)
        | cons c0 a1' =>
          rw [← ha, List.cons_append] at hsplit
          have h1 := (List.cons.injEq c a' c0 (a1' ++ a2)).mp hsplit
          apply ih hrec a1' a2 h1.2 hne
          rcases hlb with ⟨hnil, _⟩ | ⟨x0, c1, hx, hw⟩
          · exact absurd hnil (by simp)
          · cases x0 with
            | nil =>
              simp only [List.nil_append] at hx
              have h2 := (List.cons.injEq c0 a1' c1 []).mp hx
              refine Or.inl ⟨h2.2, ?_⟩
              show (!isWordChar c) = true
              rw [h1.1, h2.1]
              simp [hw]
            | cons c2 x0' =>
              rw [List.cons_append] at hx
              have h2 := (List.cons.injEq c0 a1' c2 (x0' ++ [c1])).mp hx
              exact Or.inr ⟨x0', c1, h2.2, hw⟩
      | none => rw [hrec] at h; simp at h

theorem maskIPsAux_congr : ∀ (f1 : Nat) {prev : Option Char} {cs : List Char} (f2 : Nat),
    cs.length ≤ f1 → cs.length ≤ f2 → maskIPsAux f1 prev cs = maskIPsAux f2 prev cs := by
  intro f1
  induction f1 with
  | zero =>
    intro prev cs f2 h1 _
    have : cs = [] := List.length_eq_zero.mp (Nat.le_zero.mp h1)
    subst this
    cases f2 with
    | zero => rfl
    | succ g => rfl
  | succ n ih =>
    intro prev cs f2 h1 h2
    cases f2 with
    | zero =>
      have : cs = [] := List.length_eq_zero.mp (Nat.le_zero.mp h2)
      subst this
      rfl
    | succ g =>
      rw [maskIPsAux, maskIPsAux]
      cases hf : findIP prev cs with
      | none => rfl
      | some amr =>
        obtain ⟨a, m, r⟩ := amr
        have hlt : r.length < cs.length := findIP_rest_lt hf
        show a ++ ipSentinel ++ maskIPsAux n m.getLast? r =
          a ++ ipSentinel ++ maskIPsAux g m.getLast? r
        rw [ih g (by omega) (by omega)]

theorem maskIPs_of_none {prev : Option Char} {cs : List Char} (h : findIP prev cs = none) :
    maskIPs prev cs = cs := by
  unfold maskIPs
  cases hl : cs.length with
  | zero => rfl
  | succ n => rw [maskIPsAux, h]

theorem maskIPs_of_some {prev : Option Char} {cs a m r : List Char}
    (h : findIP prev cs = some (a, m, r)) :
    maskIPs prev cs = a ++ ipSentinel ++ maskIPs m.getLast? r := by
  have hlt : r.length < cs.length := findIP_rest_lt h
  unfold maskIPs
  cases hl : cs.length with
  | zero => omega
  | succ n =>
    rw [maskIPsAux, h]
    show a ++ ipSentinel ++ maskIPsAux n m.getLast? r =
      a ++ ipSentinel ++ maskIPsAux r.length m.getLast? r
    rw [show maskIPsAux n m.getLast? r = maskIPsAux r.length m.getLast? r from
      maskIPsAux_congr n r.length (by omega) (le_refl _)]

theorem rightBdry_maskIPs {prev : Option Char} {cs : List Char}
    (h : rightBdry cs = true) : rightBdry (maskIPs prev cs) = true := by
  cases hf : findIP prev cs with
  | none => rw [maskIPs_of_none hf]; exact h
  | some amr =>
    obtain ⟨a, m, r⟩ := amr
    rw [maskIPs_of_some hf]
    cases ha : a with
    | nil => rfl
    | cons c a' =>
      have he := (findIP_append hf).1
      rw [ha] at he
      rw [he] at h
      exact h

theorem ipFreeFrom_of_findIP_none {prev : Option Char} {cs : List Char}
    (h : findIP prev cs = none) : IPFreeFrom prev cs := by
  intro x m y heq hcore hlb hrb
  have hnone := findIP_none_no_match h x (m ++ y) (by rw [heq, List.append_assoc]) hlb
  rw [matchIPAt_complete hcore hrb] at hnone
  simp at hnone

theorem ipFreeFrom_nil (prev : Option Char) : IPFreeFrom prev [] := by
  intro x m y heq hcore _ _
  have : m = [] := by
    have := (List.append_eq_nil.mp heq.symm).1
    exact (List.append_eq_nil.mp this).2
  exact hcore.ip_ne_nil this

theorem last_eq_of_append_last {u v x0 : List Char} {c : Char}
    (h : u ++ v = x0 ++ [c]) (hv : v ≠ []) : ∃ v0, v = v0 ++ [c] := by
  rcases List.eq_nil_or_concat v with hnil | ⟨v0, c0, hv0⟩
  · exact absurd hnil hv
  · rw [List.concat_eq_append] at hv0
    subst hv0
    refine ⟨v0, ?_⟩
    have h1 : (u ++ (v0 ++ [c0])).getLast? = some c0 := by
      rw [List.getLast?_append_of_ne_nil _ (by simp)]
      rw [List.getLast?_append_of_ne_nil _ (by simp)]
      rfl
    rw [h] at h1
    have h2 : (x0 ++ [c]).getLast? = some c := by
      rw [List.getLast?_append_of_ne_nil _ (by simp)]
      rfl
    rw [h1] at h2
    simp only [Option.some.injEq] at h2
    rw [h2]

theorem ipFree_maskIPs : ∀ (n : Nat) (cs : List Char) (prev : Option Char),
    cs.length ≤ n → IPFreeFrom prev (maskIPs prev cs) := by
  intro n
  induction n with
  | zero =>
    intro cs prev hl
    have : cs = [] := List.length_eq_zero.mp (Nat.le_zero.mp hl)
    subst this
    rw [show maskIPs prev [] = [] from rfl]
    exact ipFreeFrom_nil prev
  | succ n ih =>
    intro cs prev hl
    cases hf : findIP prev cs with
    | none =>
      rw [maskIPs_of_none hf]
      exact ipFreeFrom_of_findIP_none hf
    | some amr =>
      obtain ⟨a, m, r⟩ := amr
      rw [maskIPs_of_some hf, List.append_assoc]
      obtain ⟨he, hcore, hlba, hrbr⟩ := findIP_sound hf
      have hlt : r.length < cs.length := findIP_rest_lt hf
      have htail := ih r m.getLast? (by omega)
      have hrbt : rightBdry (maskIPs m.getLast? r) = true := rightBdry_maskIPs hrbr
      intro x m' y heq hcore' hlb' hrb'
      rcases split_middle heq.symm with ⟨y1, hin_a, hy⟩ | ⟨x1, hin_B, hx⟩ |
        ⟨m1, m2, hmm, hm1, hm2, hAs, hBs⟩
      · -- the candidate lies inside the skipped prefix a
        cases hy1 : y1 with
        | nil =>
          rw [hy1, List.append_nil] at hin_a
          have hane : a ≠ [] := by
            rw [hin_a]
            intro hc
            exact hcore'.ip_ne_nil (List.append_eq_nil.mp hc).2
          rcases hlba with ⟨hnil, _⟩ | ⟨x0, c0, hx0, hw⟩
          · exact hane hnil
          · obtain ⟨m0, hm0⟩ := last_eq_of_append_last
              (by rw [← hin_a, hx0]) hcore'.ip_ne_nil
            have hlast : m'.getLast? = some c0 := by
              rw [hm0, List.getLast?_append_of_ne_nil _ (by simp)]
              rfl
            have hdig := hcore'.last_digit c0 hlast
            rw [isWordChar_of_digit hdig] at hw
            simp at hw
        | cons cy y1' =>
          rw [hy1] at hin_a hy
          have hrbcy : (!isWordChar cy) = true := by
            rw [hy] at hrb'
            exact hrb'
          have hnone := findIP_some_prefix hf x (m' ++ (cy :: y1'))
            (by rw [hin_a, List.append_assoc]) (by simp) hlb'
          have hcomp := matchIPAt_complete (b := (cy :: y1') ++ (m ++ r)) hcore'
            (show rightBdry ((cy :: y1') ++ (m ++ r)) = true from hrbcy)
          rw [show m' ++ ((cy :: y1') ++ (m ++ r)) = (m' ++ (cy :: y1')) ++ (m ++ r) from
            by simp] at hcomp
          rw [hcomp] at hnone
          simp at hnone
      · -- the candidate lies inside the sentinel or the masked tail
        rcases split_middle hin_B.symm with ⟨y2, hin_s, _⟩ | ⟨x2, hin_t, hx1⟩ |
          ⟨m1, m2, hmm, hm1, hm2, hAs, hBs⟩
        · obtain ⟨ch, m0, hch, hdg⟩ := hcore'.head_digit
          have hmem : ch ∈ ipSentinel := by
            rw [hin_s]
            exact List.mem_append_left _ (List.mem_append_right _
              (by rw [hch]; exact List.mem_cons_self _ _))
          have : ∀ c ∈ ipSentinel, isDigitA c = false := by decide
          rw [this ch hmem] at hdg
          simp at hdg
        · cases hx2 : x2 with
          | nil =>
            obtain ⟨ch, m0, hch, hdg⟩ := hcore'.head_digit
            rw [hx2, List.nil_append] at hin_t
            have hx3 : (!isWordChar ch) = true := by
              rw [show maskIPs m.getLast? r = ch :: (m0 ++ y) from
                by rw [hin_t, hch, List.cons_append]] at hrbt
              exact hrbt
            rw [isWordChar_of_digit hdg] at hx3
            simp at hx3
          | cons c2 x2' =>
            have hx2ne : x2 ≠ [] := by rw [hx2]; simp
            rcases hlb' with ⟨hnil, _⟩ | ⟨x0, c1, hx0, hw⟩
            · rw [hx, hx1] at hnil
              have h2 := (List.append_eq_nil.mp hnil).2
              have h3 := (List.append_eq_nil.mp h2).1
              exact absurd h3 (by decide)
            · have hxeq : (a ++ ipSentinel) ++ x2 = x0 ++ [c1] := by
                rw [← hx0, hx, hx1]
                simp
              obtain ⟨v0, hv0⟩ := last_eq_of_append_last hxeq hx2ne
              exact htail x2 m' y hin_t hcore' (Or.inr ⟨v0, c1, hv0, hw⟩) hrb'
        · have hsenteq : x1 ++ m1 =
              ('|' :: '|' :: '|' :: 'I' :: 'P' :: '|' :: '|' :: []) ++ ['|'] := by
            rw [← hAs]
            rfl
          have hmemp : '|' ∈ m1 := last_mem_of_concat_eq hsenteq hm1
          exact hcore'.ip_no_pipe (by rw [hmm]; exact List.mem_append_left m2 hmemp)
      · -- the candidate spans the seam between a and the sentinel
        have hBeq : m2 ++ y =
            '|' :: (('|' :: '|' :: 'I' :: 'P' :: '|' :: '|' :: '|' :: []) ++
              maskIPs m.getLast? r) := by
          rw [← hBs]
          rfl
        have hmemp : '|' ∈ m2 := head_mem_of_cons_eq hBeq hm2
        exact hcore'.ip_no_pipe (by rw [hmm]; exact List.mem_append_right m1 hmemp)

theorem maskIPs_of_ipFree {prev : Option Char} {cs : List Char}
    (h : IPFreeFrom prev cs) : maskIPs prev cs = cs := by
  cases hf : findIP prev cs with
  | none => exact maskIPs_of_none hf
  | some amr =>
    obtain ⟨a, m, r⟩ := amr
    obtain ⟨he, hcore, hlb, hrb⟩ := findIP_sound hf
    exact absurd (h a m r (by rw [he, List.append_assoc]) hcore hlb hrb) (by simp)

theorem emailFree_maskIPs : ∀ (n : Nat) (cs : List Char) (prev : Option Char),
    cs.length ≤ n → EmailFree cs → EmailFree (maskIPs prev cs) := by
  intro n
  induction n with
  | zero =>
    intro cs prev hl hfree
    have : cs = [] := List.length_eq_zero.mp (Nat.le_zero.mp hl)
    subst this
    rw [show maskIPs prev [] = [] from rfl]
    exact emailFree_nil
  | succ n ih =>
    intro cs prev hl hfree
    cases hf : findIP prev cs with
    | none =>
      rw [maskIPs_of_none hf]
      exact hfree
    | some amr =>
      obtain ⟨a, m, r⟩ := amr
      rw [maskIPs_of_some hf]
      have he := (findIP_append hf).1
      have hlt : r.length < cs.length := findIP_rest_lt hf
      have hfree_a : EmailFree a :=
        emailFree_infix (p := []) (q := m ++ r) hfree (by rw [he]; simp)
      have hfree_r : EmailFree r := by
        apply emailFree_infix (p := a ++ m) (q := []) hfree
        rw [he]
        simp
      have hfree_t : EmailFree (maskIPs m.getLast? r) := ih r m.getLast? (by omega) hfree_r
      have hfree_s : EmailFree ipSentinel := emailFree_of_no_at (by decide)
      have hB : EmailFree (ipSentinel ++ maskIPs m.getLast? r) :=
        emailFree_append_pipeL hfree_s hfree_t
          ⟨'|' :: '|' :: '|' :: 'I' :: 'P' :: '|' :: '|' :: [], rfl⟩
      have hAB : EmailFree (a ++ (ipSentinel ++ maskIPs m.getLast? r)) :=
        emailFree_append_pipeR hfree_a hB ⟨_, rfl⟩
      rw [List.append_assoc]
      exact hAB

/-- C7: the PII masker is idempotent — for every input string, masking an
already-masked text changes nothing: the e-mail substitution leaves no
e-mail-shaped substring behind (the sentinel contains no `@` and its `|`
characters cannot take part in a match), the IPv4 substitution leaves no
boundary-valid IPv4-shaped substring behind, and neither substitution can
manufacture a match for the other pattern. -/
theorem c7_mask_pii_idempotent (t : String) : mask_pii (mask_pii t) = mask_pii t := by
  unfold mask_pii
  rw [show (String.mk (maskIPs none (maskEmails t.toList))).toList =
    maskIPs none (maskEmails t.toList) from rfl]
  have h1 : EmailFree (maskEmails t.toList) := emailFree_maskEmails t.toList
  have h2 : EmailFree (maskIPs none (maskEmails t.toList)) :=
    emailFree_maskIPs (maskEmails t.toList).length (maskEmails t.toList) none
      (le_refl _) h1
  have h3 : IPFreeFrom none (maskIPs none (maskEmails t.toList)) :=
    ipFree_maskIPs (maskEmails t.toList).length (maskEmails t.toList) none (le_refl _)
  rw [maskEmails_of_emailFree h2, maskIPs_of_ipFree h3]
